import Mathlib

/-!
Shallow embedding of the blackwidow list engine (`src/redis_lists.cc`).

The engine stores every Redis-style list in an ordered KV backend using two
column families: a meta record per list key and one data record per element,
keyed by `(user_key, version, logical_index)`.  We model the backend state as
a pair of association lists plus a commit counter, the iterator as a sorted
view with an integer position, and each engine operation as a pure function
from state to state.  The meta-value helpers (`IsStale`, `InitialMetaValue`,
`ModifyLeftIndex`, ...) live in headers that are not part of the provided
source; they are modelled from the specification, as marked on each one.

All 64-bit fields are `Nat` values reduced modulo `2 ^ 64`; arithmetic that
can wrap goes through `u64I`.
-/

namespace BlackWidow

/-- Opaque byte strings: user keys and element payloads. -/
abbrev Bytes := List Nat

/-- Result channel of every engine operation: success, not-found, or a
backend write error. -/
inductive Status where
  | ok : Status
  | notFound : Status
  | berr : Status
deriving DecidableEq, Repr

/-- Reduce an integer into the `u64` value range, as C++ `uint64_t`
arithmetic does. -/
def u64I (x : Int) : Nat := (x % (2 ^ 64 : Int)).toNat

/-- Reduce an integer into the `u32` value range (the `version` field). -/
def u32I (x : Int) : Nat := (x % (2 ^ 32 : Int)).toNat

/-- The parsed meta record of one list key: element count, generation
version, absolute expiry timestamp and the two logical cursors. -/
structure MetaValue where
  count : Nat
  version : Nat
  timestamp : Nat
  left_index : Nat
  right_index : Nat
deriving DecidableEq, Repr

/-- Initial left cursor of a fresh list (`2 ^ 63 - 1`). -/
def initialLeftIndex : Nat := 2 ^ 63 - 1

/-- Initial right cursor of a fresh list (`2 ^ 63`). -/
def initialRightIndex : Nat := 2 ^ 63

/-- Modelled from the spec: `ParsedListsMetaValue::IsStale` is not under
`src/`; per the spec a meta is expired when `timestamp != 0 ∧ timestamp ≤
now`.  (The `count == 0` half of staleness is checked separately by every
call site in the source, so `IsStale` itself is the timestamp test.) -/
def isStale (m : MetaValue) (now : Nat) : Bool :=
  m.timestamp != 0 && m.timestamp ≤ now

/-- Modelled from the spec: `UpdateVersion` bumps the monotonically
non-decreasing per-key generation counter. -/
def updateVersion (m : MetaValue) : MetaValue :=
  { m with version := u32I ((m.version : Int) + 1) }

/-- Modelled from the spec: `InitialMetaValue` re-initializes the meta in
place — count `0`, cursors back at their midpoint defaults, no expiry — and
bumps `version` so all prior data records become orphans. -/
def initialMetaValue (m : MetaValue) : MetaValue :=
  { count := 0
    version := u32I ((m.version : Int) + 1)
    timestamp := 0
    left_index := initialLeftIndex
    right_index := initialRightIndex }

/-- Modelled from the spec: the fresh `ListsMetaValue` built by the create
paths of `LPush`/`RPush`/`RPoplpush` — given count, version `0` until
`UpdateVersion`, cursors at their initial midpoint straddle, no expiry. -/
def freshMeta (n : Nat) : MetaValue :=
  { count := n % 2 ^ 64
    version := 0
    timestamp := 0
    left_index := initialLeftIndex
    right_index := initialRightIndex }

/-- Modelled from the spec: `ModifyCount(d)` adds `d` to `count` in `u64`
arithmetic (negative `d` passes through the unsigned conversion). -/
def modifyCount (m : MetaValue) (d : Int) : MetaValue :=
  { m with count := u64I ((m.count : Int) + d) }

/-- Modelled from the spec: `ModifyLeftIndex(d)` moves the left cursor
outward by `d` (it subtracts `d` in `u64` arithmetic). -/
def modifyLeftIndex (m : MetaValue) (d : Int) : MetaValue :=
  { m with left_index := u64I ((m.left_index : Int) - d) }

/-- Modelled from the spec: `ModifyRightIndex(d)` moves the right cursor
outward by `d` (it adds `d` in `u64` arithmetic). -/
def modifyRightIndex (m : MetaValue) (d : Int) : MetaValue :=
  { m with right_index := u64I ((m.right_index : Int) + d) }

/-- Modelled from the spec: `SetRelativeTimestamp(ttl)` stores the absolute
expiry `now + ttl`. -/
def setRelativeTimestamp (m : MetaValue) (now : Nat) (ttl : Int) : MetaValue :=
  { m with timestamp := u64I ((now : Int) + ttl) }

/-- The structured data-record key `(user_key, version, logical_index)`. -/
structure DataKeyT where
  key : Bytes
  version : Nat
  index : Nat
deriving DecidableEq, Repr

/-- The engine's view of the backend database: the meta column family, the
data column family, and a counter of committed writes (each `Write` of a
batch and each direct `Put` is one commit). -/
structure DB where
  meta : List (Bytes × MetaValue)
  data : List (DataKeyT × Bytes)
  commits : Nat
deriving DecidableEq, Repr

/-- The empty backend. -/
def emptyDB : DB := { meta := [], data := [], commits := 0 }

/-- Point read from the meta column family. -/
def metaGet (db : DB) (k : Bytes) : Option MetaValue :=
  match db.meta.find? (fun e => e.1 = k) with
  | some e => some e.2
  | none => none

/-- Point read from the data column family. -/
def dataGet (db : DB) (dk : DataKeyT) : Option Bytes :=
  match db.data.find? (fun e => e.1 = dk) with
  | some e => some e.2
  | none => none

/-- One record of a write batch. -/
inductive BOp where
  | putMeta : Bytes → MetaValue → BOp
  | putData : DataKeyT → Bytes → BOp
  | delData : DataKeyT → BOp
deriving DecidableEq, Repr

/-- Apply one batch record to the raw column-family contents. -/
def applyBOp (db : DB) : BOp → DB
  | .putMeta k m => { db with meta := (k, m) :: db.meta.filter (fun e => ¬ e.1 = k) }
  | .putData dk v => { db with data := (dk, v) :: db.data.filter (fun e => ¬ e.1 = dk) }
  | .delData dk => { db with data := db.data.filter (fun e => ¬ e.1 = dk) }

/-- Commit a write batch: apply every record in order and count one
committed write. -/
def applyBatch (db : DB) (b : List BOp) : DB :=
  let db1 := b.foldl applyBOp db
  { db1 with commits := db.commits + 1 }

/-- Head of the failure script: whether the next backend write fails. -/
def failHead (fs : List Bool) : Bool := fs.headD false

/-- Bytewise lexicographic comparison of two byte strings (shorter prefix
sorts first), as the backend compares raw keys. -/
def bytesCmp : Bytes → Bytes → Ordering
  | [], [] => .eq
  | [], _ :: _ => .lt
  | _ :: _, [] => .gt
  | a :: as, b :: bs =>
    if a < b then .lt else if b < a then .gt else bytesCmp as bs

/-- The `ListsDataKeyComparatorImpl` order: user-key bytes first, then
numerically on `(version, logical_index)` — the order the big-endian
fixed-width suffix encoding realizes on the backend. -/
def dkCmp (x y : DataKeyT) : Ordering :=
  match bytesCmp x.key y.key with
  | .lt => .lt
  | .gt => .gt
  | .eq =>
    if x.version < y.version then .lt
    else if y.version < x.version then .gt
    else if x.index < y.index then .lt
    else if y.index < x.index then .gt
    else .eq

/-- Strict order on data keys. -/
def dkLt (x y : DataKeyT) : Bool := dkCmp x y = Ordering.lt

/-- Non-strict order on data keys. -/
def dkLe (x y : DataKeyT) : Bool := ¬ dkCmp x y = Ordering.gt

/-- Insert one entry into a comparator-sorted entry list. -/
def sortedInsert (e : DataKeyT × Bytes) : List (DataKeyT × Bytes) → List (DataKeyT × Bytes)
  | [] => [e]
  | f :: fs => if dkLe e.1 f.1 then e :: f :: fs else f :: sortedInsert e fs

/-- The data column family in comparator order, as an iterator walks it. -/
def iterEntries (db : DB) : List (DataKeyT × Bytes) :=
  db.data.foldr sortedInsert []

/-- A backend iterator over the data column family: the sorted entry view
and a position (`pos < 0` or `pos ≥ length` means `!Valid()`). -/
structure DIter where
  entries : List (DataKeyT × Bytes)
  pos : Int
deriving Repr

/-- Backend `NewIterator`: fresh iterator, not yet positioned. -/
def newIter (db : DB) : DIter := { entries := iterEntries db, pos := 0 }

/-- Backend `Seek(t)`: position at the first entry whose key is `≥ t` (invalid when
every entry is smaller). -/
def DIter.seek (it : DIter) (t : DataKeyT) : DIter :=
  { it with pos := (it.entries.findIdx (fun e => ¬ dkLt e.1 t) : Int) }

/-- Backend `Valid()`. -/
def DIter.valid (it : DIter) : Bool :=
  0 ≤ it.pos && it.pos < (it.entries.length : Int)

/-- Backend `Next()`. -/
def DIter.next (it : DIter) : DIter := { it with pos := it.pos + 1 }

/-- Backend `Prev()`. -/
def DIter.prev (it : DIter) : DIter := { it with pos := it.pos - 1 }

/-- Backend `value()` of a valid iterator (junk on an invalid one, never read by
the loops below because they test `Valid()` first). -/
def DIter.value (it : DIter) : Bytes :=
  ((it.entries.getD it.pos.toNat (⟨[], 0, 0⟩, [])).2)

/-- The null-terminator-sensitive equality the source applies to payloads:
`strcmp(a.data(), b.data()) == 0` compares only the bytes before the first
embedded zero (a C string stops at NUL). -/
def strcmpEq (a b : Bytes) : Bool :=
  a.takeWhile (fun c => c ≠ 0) = b.takeWhile (fun c => c ≠ 0)

/-!
Each source loop below takes a leading `fuel` argument so that the
recursion is structural (kernel-reducible).  `fuel` is exactly the loop
variant — the forward loops run at most `stop + 1 − cur` (resp.
`right − cur`) iterations because the counter rises past the bound, the
backward loops at most `pos + 1` iterations because the iterator runs off
the front and goes invalid — and every call site passes that initial
value, so exhausting `fuel` coincides with the loop's own exit test and the
fueled function equals the source loop. -/

/-- The `LRange`/`LTrim` collection loop: walk forward collecting values
while the iterator is valid and `cur ≤ stop`. -/
def rangeLoop (fuel : Nat) (it : DIter) (cur stop : Nat) : List Bytes :=
  match fuel with
  | 0 => []
  | fuel + 1 =>
    if it.valid ∧ cur ≤ stop then
      it.value :: rangeLoop fuel it.next (cur + 1) stop
    else []

/-- The `LInsert` pivot scan: first index in `[cur, right)` whose payload
`strcmp`-matches the pivot. -/
def pivotScan (fuel : Nat) (it : DIter) (cur rightIdx : Nat) (pivot : Bytes) : Option Nat :=
  match fuel with
  | 0 => none
  | fuel + 1 =>
    if it.valid ∧ cur < rightIdx then
      if strcmpEq it.value pivot then some cur
      else pivotScan fuel it.next (cur + 1) rightIdx pivot
    else none

/-- The `LInsert` left-half collection loop: payloads from `cur` up to the
pivot, the pivot's own payload included only in the `After` case. -/
def firstHalfCollect (fuel : Nat) (it : DIter) (cur pivotIdx : Nat) (isAfter : Bool) :
    List Bytes :=
  match fuel with
  | 0 => []
  | fuel + 1 =>
    if it.valid ∧ cur ≤ pivotIdx then
      if cur = pivotIdx then (if isAfter then [it.value] else [])
      else it.value :: firstHalfCollect fuel it.next (cur + 1) pivotIdx isAfter
    else []

/-- The `LInsert` right-half collection loop: payloads from the pivot up to
`right − 1`, the pivot skipped in the `After` case. -/
def secondHalfCollect (fuel : Nat) (it : DIter) (cur pivotIdx rightIdx : Nat)
    (isAfter : Bool) : List Bytes :=
  match fuel with
  | 0 => []
  | fuel + 1 =>
    if it.valid ∧ cur < rightIdx then
      if cur = pivotIdx ∧ isAfter = true then
        secondHalfCollect fuel it.next (cur + 1) pivotIdx rightIdx isAfter
      else it.value :: secondHalfCollect fuel it.next (cur + 1) pivotIdx rightIdx isAfter
    else []

/-- The `LRem` forward victim scan: indices in `[cur, stop]` whose payload
`strcmp`-matches the target, up to `rest` of them when `cnt ≠ 0`. -/
def lremScanF (fuel : Nat) (it : DIter) (cur stop : Nat) (cnt : Int) (rest : Nat)
    (target : Bytes) : List Nat :=
  match fuel with
  | 0 => []
  | fuel + 1 =>
    if it.valid ∧ cur ≤ stop ∧ (cnt = 0 ∨ rest ≠ 0) then
      if strcmpEq it.value target then
        cur :: lremScanF fuel it.next (cur + 1) stop cnt
          (if cnt ≠ 0 then rest - 1 else rest) target
      else lremScanF fuel it.next (cur + 1) stop cnt rest target
    else []

/-- The `LRem` reverse victim scan (`cnt < 0`): walk backward with `Prev`
until the iterator falls off the front or the limit is exhausted. -/
def lremScanR (fuel : Nat) (it : DIter) (cur start : Nat) (cnt : Int) (rest : Nat)
    (target : Bytes) : List Nat :=
  match fuel with
  | 0 => []
  | fuel + 1 =>
    if it.valid ∧ cur ≥ start ∧ (cnt = 0 ∨ rest ≠ 0) then
      if strcmpEq it.value target then
        cur :: lremScanR fuel it.prev (u64I ((cur : Int) - 1)) start cnt
          (if cnt ≠ 0 then rest - 1 else rest) target
      else lremScanR fuel it.prev (u64I ((cur : Int) - 1)) start cnt rest target
    else []

/-- The `LRem` left-side rewrite loop: walk backward from the sublist's
right end to the list head, skipping up to `rest` `strcmp`-matches and
re-writing every survivor at the next slot leftward from `left`. -/
def lremRewriteL (fuel : Nat) (it : DIter) (cur start left : Nat) (rest : Nat)
    (key : Bytes) (version : Nat) (target : Bytes) : List BOp :=
  match fuel with
  | 0 => []
  | fuel + 1 =>
    if it.valid ∧ cur ≥ start then
      if strcmpEq it.value target ∧ rest > 0 then
        lremRewriteL fuel it.prev (u64I ((cur : Int) - 1)) start left (rest - 1)
          key version target
      else
        BOp.putData ⟨key, version, left⟩ it.value ::
          lremRewriteL fuel it.prev (u64I ((cur : Int) - 1)) start (u64I ((left : Int) - 1))
            rest key version target
    else []

/-- The `LRem` right-side rewrite loop: walk forward from the sublist's
left end to the list tail, skipping up to `rest` `strcmp`-matches and
re-writing every survivor at the next slot rightward from `right`. -/
def lremRewriteR (fuel : Nat) (it : DIter) (cur stop rightSlot : Nat) (rest : Nat)
    (key : Bytes) (version : Nat) (target : Bytes) : List BOp :=
  match fuel with
  | 0 => []
  | fuel + 1 =>
    if it.valid ∧ cur ≤ stop then
      if strcmpEq it.value target ∧ rest > 0 then
        lremRewriteR fuel it.next (cur + 1) stop rightSlot (rest - 1) key version target
      else
        BOp.putData ⟨key, version, rightSlot⟩ it.value ::
          lremRewriteR fuel it.next (cur + 1) stop (u64I ((rightSlot : Int) + 1)) rest
            key version target
    else []

/-- Initial fuel of a backward loop: the iterator can step back at most
`pos + 1` times before going invalid. -/
def backFuel (it : DIter) : Nat := (it.pos + 1).toNat

/-- The positional-index translation shared by `LRange`, `LTrim`, `LIndex`
and `LSet`: `left_index + i + 1` for `i ≥ 0`, `right_index + i` for
`i < 0`, in `u64` arithmetic. -/
def translate (mv : MetaValue) (i : Int) : Nat :=
  if 0 ≤ i then u64I ((mv.left_index : Int) + i + 1)
  else u64I ((mv.right_index : Int) + i)

/-- The `LPush` per-value loop of the existing-meta branch: record the data
put at the current left cursor, then `ModifyLeftIndex(1)`,
`ModifyCount(1)`. -/
def pushLeftLoopE (mv : MetaValue) (key : Bytes) (version : Nat) :
    List Bytes → MetaValue × List BOp
  | [] => (mv, [])
  | v :: rest =>
    let idx := mv.left_index
    let mv1 := modifyCount (modifyLeftIndex mv 1) 1
    let r := pushLeftLoopE mv1 key version rest
    (r.1, BOp.putData ⟨key, version, idx⟩ v :: r.2)

/-- The `RPush` per-value loop of the existing-meta branch. -/
def pushRightLoopE (mv : MetaValue) (key : Bytes) (version : Nat) :
    List Bytes → MetaValue × List BOp
  | [] => (mv, [])
  | v :: rest =>
    let idx := mv.right_index
    let mv1 := modifyCount (modifyRightIndex mv 1) 1
    let r := pushRightLoopE mv1 key version rest
    (r.1, BOp.putData ⟨key, version, idx⟩ v :: r.2)

/-- The `LPush` per-value loop of the create branch: `count` was preset to
the number of values, so only the cursor moves. -/
def pushLeftLoopF (mv : MetaValue) (key : Bytes) (version : Nat) :
    List Bytes → MetaValue × List BOp
  | [] => (mv, [])
  | v :: rest =>
    let idx := mv.left_index
    let mv1 := modifyLeftIndex mv 1
    let r := pushLeftLoopF mv1 key version rest
    (r.1, BOp.putData ⟨key, version, idx⟩ v :: r.2)

/-- The `RPush` per-value loop of the create branch. -/
def pushRightLoopF (mv : MetaValue) (key : Bytes) (version : Nat) :
    List Bytes → MetaValue × List BOp
  | [] => (mv, [])
  | v :: rest =>
    let idx := mv.right_index
    let mv1 := modifyRightIndex mv 1
    let r := pushRightLoopF mv1 key version rest
    (r.1, BOp.putData ⟨key, version, idx⟩ v :: r.2)

/-- Source `RedisLists::LPush`.  Returns the status, the post state and the value
stored through `*ret` (the source assigns `*ret` before the final `Write`,
so the value is reported even when the commit fails). -/
def lpush (db : DB) (now : Nat) (fs : List Bool) (key : Bytes) (values : List Bytes) :
    Status × DB × Nat :=
  match metaGet db key with
  | some mv0 =>
    let mv1 := if isStale mv0 now then initialMetaValue mv0 else mv0
    let version := mv1.version
    let r := pushLeftLoopE mv1 key version values
    let batch := r.2 ++ [BOp.putMeta key r.1]
    let ret := r.1.count
    if failHead fs then (.berr, db, ret) else (.ok, applyBatch db batch, ret)
  | none =>
    let mv0 := updateVersion (freshMeta values.length)
    let version := mv0.version
    let r := pushLeftLoopF mv0 key version values
    let batch := r.2 ++ [BOp.putMeta key r.1]
    let ret := u64I (((r.1.right_index : Int) - r.1.left_index) - 1)
    if failHead fs then (.berr, db, ret) else (.ok, applyBatch db batch, ret)

/-- Source `RedisLists::RPush`. -/
def rpush (db : DB) (now : Nat) (fs : List Bool) (key : Bytes) (values : List Bytes) :
    Status × DB × Nat :=
  match metaGet db key with
  | some mv0 =>
    let mv1 := if isStale mv0 now then initialMetaValue mv0 else mv0
    let version := mv1.version
    let r := pushRightLoopE mv1 key version values
    let batch := r.2 ++ [BOp.putMeta key r.1]
    let ret := r.1.count
    if failHead fs then (.berr, db, ret) else (.ok, applyBatch db batch, ret)
  | none =>
    let mv0 := updateVersion (freshMeta values.length)
    let version := mv0.version
    let r := pushRightLoopF mv0 key version values
    let batch := r.2 ++ [BOp.putMeta key r.1]
    let ret := u64I (((r.1.right_index : Int) - r.1.left_index) - 1)
    if failHead fs then (.berr, db, ret) else (.ok, applyBatch db batch, ret)

/-- Source `RedisLists::LRange`.  Translate and clamp both window ends, seek, and
collect forward. -/
def lrange (db : DB) (now : Nat) (key : Bytes) (start stop : Int) :
    Status × List Bytes :=
  match metaGet db key with
  | none => (.notFound, [])
  | some mv =>
    if isStale mv now then (.notFound, [])
    else if mv.count = 0 then (.notFound, [])
    else
      let version := mv.version
      let si0 := translate mv start
      let ei0 := translate mv stop
      if si0 > ei0 then (.ok, [])
      else
        let si := if si0 ≤ mv.left_index then u64I ((mv.left_index : Int) + 1) else si0
        let ei := if ei0 ≥ mv.right_index then u64I ((mv.right_index : Int) - 1) else ei0
        let it := (newIter db).seek ⟨key, version, si⟩
        (.ok, rangeLoop (ei + 1 - si) it si ei)

/-- Source `RedisLists::LTrim`.  The inner critical section translates the window
(clamping only the right end), re-initializes the meta with a direct `Put`,
and collects the surviving payloads; the survivors are then re-pushed
through `RPush` — a second, separate commit.  A missing key also ends in
`RPush` with an empty vector. -/
def ltrim (db : DB) (now : Nat) (fs : List Bool) (key : Bytes) (start stop : Int) :
    Status × DB :=
  match metaGet db key with
  | none =>
    let r := rpush db now fs key []
    (r.1, r.2.1)
  | some mv =>
    if isStale mv now then (.ok, db)
    else
      let version := mv.version
      let si := translate mv start
      let ei0 := translate mv stop
      if si > ei0 then (.ok, db)
      else
        let ei := if ei0 ≥ mv.right_index then u64I ((mv.right_index : Int) - 1) else ei0
        let mv1 := initialMetaValue mv
        if failHead fs then (.berr, db)
        else
          let db1 := applyBatch db [BOp.putMeta key mv1]
          let it := (newIter db).seek ⟨key, version, si⟩
          let values := rangeLoop (ei + 1 - si) it si ei
          let r := rpush db1 now fs.tail key values
          (r.1, r.2.1)

/-- Source `RedisLists::LLen`.  `len0` is the caller-supplied contents of the
output parameter, which the source leaves untouched on a missing key. -/
def llen (db : DB) (now : Nat) (key : Bytes) (len0 : Nat) : Status × Nat :=
  match metaGet db key with
  | none => (.notFound, len0)
  | some mv =>
    if isStale mv now then (.notFound, 0)
    else if mv.count = 0 then (.notFound, 0)
    else (.ok, mv.count)

/-- Source `RedisLists::LPop`.  The element is read (and the output assigned)
before the batch commits. -/
def lpop (db : DB) (now : Nat) (fs : List Bool) (key : Bytes) :
    Status × DB × Option Bytes :=
  match metaGet db key with
  | none => (.notFound, db, none)
  | some mv =>
    if isStale mv now then (.notFound, db, none)
    else if mv.count = 0 then (.notFound, db, none)
    else
      let version := mv.version
      let idx := u64I ((mv.left_index : Int) + 1)
      match dataGet db ⟨key, version, idx⟩ with
      | none => (.notFound, db, none)
      | some p =>
        let mv1 := modifyLeftIndex (modifyCount mv (-1)) (-1)
        let batch := [BOp.delData ⟨key, version, idx⟩, BOp.putMeta key mv1]
        if failHead fs then (.berr, db, some p)
        else (.ok, applyBatch db batch, some p)

/-- Source `RedisLists::RPop`. -/
def rpop (db : DB) (now : Nat) (fs : List Bool) (key : Bytes) :
    Status × DB × Option Bytes :=
  match metaGet db key with
  | none => (.notFound, db, none)
  | some mv =>
    if isStale mv now then (.notFound, db, none)
    else if mv.count = 0 then (.notFound, db, none)
    else
      let version := mv.version
      let idx := u64I ((mv.right_index : Int) - 1)
      match dataGet db ⟨key, version, idx⟩ with
      | none => (.notFound, db, none)
      | some p =>
        let mv1 := modifyRightIndex (modifyCount mv (-1)) (-1)
        let batch := [BOp.delData ⟨key, version, idx⟩, BOp.putMeta key mv1]
        if failHead fs then (.berr, db, some p)
        else (.ok, applyBatch db batch, some p)

/-- Source `RedisLists::LIndex`.  A snapshot read: translate the index and do a
point `Get` on the data column family — the source performs no range check
against the cursors. -/
def lindex (db : DB) (now : Nat) (key : Bytes) (i : Int) : Status × Option Bytes :=
  match metaGet db key with
  | none => (.notFound, none)
  | some mv =>
    if isStale mv now then (.notFound, none)
    else if mv.count = 0 then (.notFound, none)
    else
      let idx := translate mv i
      match dataGet db ⟨key, mv.version, idx⟩ with
      | some p => (.ok, some p)
      | none => (.notFound, none)

/-- Put a run of payloads at consecutive ascending logical indices. -/
def writeAsc (key : Bytes) (version : Nat) : Nat → List Bytes → List BOp
  | _, [] => []
  | i, v :: vs => BOp.putData ⟨key, version, i⟩ v :: writeAsc key version (u64I ((i : Int) + 1)) vs

/-- Source `RedisLists::LInsert` (`before = true` is the `Before` marker).  Scan
for the first `strcmp`-match of the pivot, relocate the shorter side by one
slot, write the new element at the freed slot, bump `count`. -/
def linsert (db : DB) (now : Nat) (fs : List Bool) (key : Bytes) (before : Bool)
    (pivot value : Bytes) : Status × DB × Int :=
  match metaGet db key with
  | none => (.notFound, db, 0)
  | some mv =>
    if isStale mv now then (.notFound, db, 0)
    else if mv.count = 0 then (.notFound, db, 0)
    else
      let version := mv.version
      let startIdx := u64I ((mv.left_index : Int) + 1)
      let it0 := (newIter db).seek ⟨key, version, startIdx⟩
      match pivotScan (mv.right_index - startIdx) it0 startIdx mv.right_index pivot with
      | none => (.notFound, db, -1)
      | some pivotIdx =>
        let midIdx := u64I ((mv.left_index : Int) +
          (u64I ((mv.right_index : Int) - mv.left_index) / 2 : Nat))
        if pivotIdx ≤ midIdx then
          let targetIdx := if before then u64I ((pivotIdx : Int) - 1) else pivotIdx
          let it1 := (newIter db).seek ⟨key, version, startIdx⟩
          let nodes := firstHalfCollect (pivotIdx + 1 - startIdx) it1 startIdx pivotIdx (!before)
          let putOps := writeAsc key version mv.left_index nodes
          let mv1 := modifyCount (modifyLeftIndex mv 1) 1
          let batch := putOps ++ [BOp.putMeta key mv1,
            BOp.putData ⟨key, version, targetIdx⟩ value]
          let ret := (mv1.count : Int)
          if failHead fs then (.berr, db, ret)
          else (.ok, applyBatch db batch, ret)
        else
          let targetIdx := if before then pivotIdx else u64I ((pivotIdx : Int) + 1)
          let it1 := (newIter db).seek ⟨key, version, pivotIdx⟩
          let nodes := secondHalfCollect (mv.right_index - pivotIdx) it1 pivotIdx pivotIdx mv.right_index (!before)
          let putOps := writeAsc key version (u64I ((targetIdx : Int) + 1)) nodes
          let mv1 := modifyCount (modifyRightIndex mv 1) 1
          let batch := putOps ++ [BOp.putMeta key mv1,
            BOp.putData ⟨key, version, targetIdx⟩ value]
          let ret := (mv1.count : Int)
          if failHead fs then (.berr, db, ret)
          else (.ok, applyBatch db batch, ret)

/-- Source `RedisLists::LPushx`.  The third component is the value stored through
`*len` (`none` when the source leaves the output parameter untouched). -/
def lpushx (db : DB) (now : Nat) (fs : List Bool) (key : Bytes) (v : Bytes) :
    Status × DB × Option Nat :=
  match metaGet db key with
  | none => (.notFound, db, none)
  | some mv =>
    if isStale mv now then (.notFound, db, none)
    else if mv.count = 0 then (.notFound, db, none)
    else
      let version := mv.version
      let idx := mv.left_index
      let mv1 := modifyLeftIndex (modifyCount mv 1) 1
      let batch := [BOp.putMeta key mv1, BOp.putData ⟨key, version, idx⟩ v]
      if failHead fs then (.berr, db, some mv1.count)
      else (.ok, applyBatch db batch, some mv1.count)

/-- Source `RedisLists::RPushx`. -/
def rpushx (db : DB) (now : Nat) (fs : List Bool) (key : Bytes) (v : Bytes) :
    Status × DB × Option Nat :=
  match metaGet db key with
  | none => (.notFound, db, none)
  | some mv =>
    if isStale mv now then (.notFound, db, none)
    else if mv.count = 0 then (.notFound, db, none)
    else
      let version := mv.version
      let idx := mv.right_index
      let mv1 := modifyRightIndex (modifyCount mv 1) 1
      let batch := [BOp.putMeta key mv1, BOp.putData ⟨key, version, idx⟩ v]
      if failHead fs then (.berr, db, some mv1.count)
      else (.ok, applyBatch db batch, some mv1.count)

/-- Source `RedisLists::LRem`.  Scan for victims (forward for `cnt ≥ 0`, backward
for `cnt < 0`), then rewrite the shorter side skipping the victims and move
that side's cursor inward by the victim count. -/
def lrem (db : DB) (now : Nat) (fs : List Bool) (key : Bytes) (cnt : Int)
    (target : Bytes) : Status × DB × Nat :=
  match metaGet db key with
  | none => (.notFound, db, 0)
  | some mv =>
    if isStale mv now then (.notFound, db, 0)
    else if mv.count = 0 then (.notFound, db, 0)
    else
      let version := mv.version
      let startIdx := u64I ((mv.left_index : Int) + 1)
      let stopIdx := u64I ((mv.right_index : Int) - 1)
      let rest0 := cnt.natAbs
      let delIdx :=
        if 0 ≤ cnt then
          lremScanF (stopIdx + 1 - startIdx) ((newIter db).seek ⟨key, version, startIdx⟩)
            startIdx stopIdx cnt rest0 target
        else
          lremScanR (backFuel ((newIter db).seek ⟨key, version, stopIdx⟩))
            ((newIter db).seek ⟨key, version, stopIdx⟩) stopIdx startIdx cnt rest0 target
      if delIdx.isEmpty then (.notFound, db, 0)
      else
        let d := delIdx.length
        let sublistLeft := if 0 ≤ cnt then delIdx.headD 0 else delIdx.getLastD 0
        let sublistRight := if 0 ≤ cnt then delIdx.getLastD 0 else delIdx.headD 0
        let leftPartLen := u64I ((sublistRight : Int) - startIdx)
        let rightPartLen := u64I ((stopIdx : Int) - sublistLeft)
        if leftPartLen ≤ rightPartLen then
          let ops := lremRewriteL (backFuel ((newIter db).seek ⟨key, version, sublistRight⟩))
            ((newIter db).seek ⟨key, version, sublistRight⟩)
            sublistRight startIdx sublistRight d key version target
          let mv1 := modifyCount (modifyLeftIndex mv (-(d : Int))) (-(d : Int))
          let batch := ops ++ [BOp.putMeta key mv1]
          if failHead fs then (.berr, db, d)
          else (.ok, applyBatch db batch, d)
        else
          let ops := lremRewriteR (stopIdx + 1 - sublistLeft)
            ((newIter db).seek ⟨key, version, sublistLeft⟩)
            sublistLeft stopIdx sublistLeft d key version target
          let mv1 := modifyCount (modifyRightIndex mv (-(d : Int))) (-(d : Int))
          let batch := ops ++ [BOp.putMeta key mv1]
          if failHead fs then (.berr, db, d)
          else (.ok, applyBatch db batch, d)

/-- Source `RedisLists::LSet`.  Same translation as `LIndex` but with an explicit
range check; a single direct `Put` overwrites the record in place. -/
def lset (db : DB) (now : Nat) (fs : List Bool) (key : Bytes) (i : Int) (v : Bytes) :
    Status × DB :=
  match metaGet db key with
  | none => (.notFound, db)
  | some mv =>
    if isStale mv now then (.notFound, db)
    else if mv.count = 0 then (.notFound, db)
    else
      let idx := translate mv i
      if idx ≤ mv.left_index ∨ idx ≥ mv.right_index then (.notFound, db)
      else if failHead fs then (.berr, db)
      else (.ok, applyBatch db [BOp.putData ⟨key, mv.version, idx⟩ v])

/-- Source `RedisLists::RPoplpush`.  In the `source == destination` branch the
output element is assigned as soon as the data record is read — before the
batch commits; in the two-key branch it is assigned only after a successful
commit. -/
def rpoplpush (db : DB) (now : Nat) (fs : List Bool) (src dst : Bytes) :
    Status × DB × Option Bytes :=
  if src = dst then
    match metaGet db src with
    | none => (.notFound, db, none)
    | some mv =>
      if isStale mv now then (.notFound, db, none)
      else if mv.count = 0 then (.notFound, db, none)
      else
        let version := mv.version
        let lastIdx := u64I ((mv.right_index : Int) - 1)
        match dataGet db ⟨src, version, lastIdx⟩ with
        | none => (.notFound, db, none)
        | some target =>
          if mv.count = 1 then (.ok, db, some target)
          else
            let tIdx := mv.left_index
            let mv1 := modifyLeftIndex (modifyRightIndex mv (-1)) 1
            let batch := [BOp.delData ⟨src, version, lastIdx⟩,
              BOp.putData ⟨src, version, tIdx⟩ target, BOp.putMeta src mv1]
            if failHead fs then (.berr, db, some target)
            else (.ok, applyBatch db batch, some target)
  else
    match metaGet db src with
    | none => (.notFound, db, none)
    | some mvs =>
      if isStale mvs now then (.notFound, db, none)
      else if mvs.count = 0 then (.notFound, db, none)
      else
        let sver := mvs.version
        let lastIdx := u64I ((mvs.right_index : Int) - 1)
        match dataGet db ⟨src, sver, lastIdx⟩ with
        | none => (.notFound, db, none)
        | some target =>
          let mvs1 := modifyRightIndex (modifyCount mvs (-1)) (-1)
          let srcOps := [BOp.delData ⟨src, sver, lastIdx⟩, BOp.putMeta src mvs1]
          let dstOps :=
            match metaGet db dst with
            | some mvd0 =>
              let mvd1 := if isStale mvd0 now then initialMetaValue mvd0 else mvd0
              let dver := mvd1.version
              let tIdx := mvd1.left_index
              let mvd2 := modifyLeftIndex (modifyCount mvd1 1) 1
              [BOp.putData ⟨dst, dver, tIdx⟩ target, BOp.putMeta dst mvd2]
            | none =>
              let mvd0 := updateVersion (freshMeta 1)
              let dver := mvd0.version
              let tIdx := mvd0.left_index
              let mvd1 := modifyLeftIndex mvd0 1
              [BOp.putData ⟨dst, dver, tIdx⟩ target, BOp.putMeta dst mvd1]
          let batch := srcOps ++ dstOps
          if failHead fs then (.berr, db, none)
          else (.ok, applyBatch db batch, some target)

/-- Source `RedisLists::Expire`.  `ttl > 0` stores an absolute expiry; otherwise
the meta is re-initialized (version bump, empty list).  Either way a single
direct `Put` commits. -/
def expire (db : DB) (now : Nat) (fs : List Bool) (key : Bytes) (ttl : Int) :
    Status × DB :=
  match metaGet db key with
  | none => (.notFound, db)
  | some mv =>
    if isStale mv now then (.notFound, db)
    else if 0 < ttl then
      if failHead fs then (.berr, db)
      else (.ok, applyBatch db [BOp.putMeta key (setRelativeTimestamp mv now ttl)])
    else
      if failHead fs then (.berr, db)
      else (.ok, applyBatch db [BOp.putMeta key (initialMetaValue mv)])

/-- Source `RedisLists::Del`.  Invalidates the meta in place with a single direct
`Put`. -/
def del (db : DB) (now : Nat) (fs : List Bool) (key : Bytes) : Status × DB :=
  match metaGet db key with
  | none => (.notFound, db)
  | some mv =>
    if isStale mv now then (.notFound, db)
    else if failHead fs then (.berr, db)
    else (.ok, applyBatch db [BOp.putMeta key (initialMetaValue mv)])

/-- One call of a mutating engine operation, with its arguments. -/
inductive OpCall where
  | lpush : Bytes → List Bytes → OpCall
  | rpush : Bytes → List Bytes → OpCall
  | lpushx : Bytes → Bytes → OpCall
  | rpushx : Bytes → Bytes → OpCall
  | lpop : Bytes → OpCall
  | rpop : Bytes → OpCall
  | linsert : Bytes → Bool → Bytes → Bytes → OpCall
  | lrem : Bytes → Int → Bytes → OpCall
  | lset : Bytes → Int → Bytes → OpCall
  | ltrim : Bytes → Int → Int → OpCall
  | rpoplpush : Bytes → Bytes → OpCall
  | expire : Bytes → Int → OpCall
  | del : Bytes → OpCall
deriving DecidableEq, Repr

/-- Run one mutating call, keeping its status and post state. -/
def runOpS (db : DB) (now : Nat) (fs : List Bool) : OpCall → Status × DB
  | .lpush k vs => ((lpush db now fs k vs).1, (lpush db now fs k vs).2.1)
  | .rpush k vs => ((rpush db now fs k vs).1, (rpush db now fs k vs).2.1)
  | .lpushx k v => ((lpushx db now fs k v).1, (lpushx db now fs k v).2.1)
  | .rpushx k v => ((rpushx db now fs k v).1, (rpushx db now fs k v).2.1)
  | .lpop k => ((lpop db now fs k).1, (lpop db now fs k).2.1)
  | .rpop k => ((rpop db now fs k).1, (rpop db now fs k).2.1)
  | .linsert k b p v => ((linsert db now fs k b p v).1, (linsert db now fs k b p v).2.1)
  | .lrem k c t => ((lrem db now fs k c t).1, (lrem db now fs k c t).2.1)
  | .lset k i v => lset db now fs k i v
  | .ltrim k a b => ltrim db now fs k a b
  | .rpoplpush s d => ((rpoplpush db now fs s d).1, (rpoplpush db now fs s d).2.1)
  | .expire k t => expire db now fs k t
  | .del k => del db now fs k

/-- Claim C1's equation `right_index − left_index − 1 == count`, in the
`u64` arithmetic the meta fields live in. -/
def metaEqB (m : MetaValue) : Bool :=
  u64I (((m.right_index : Int) - m.left_index) - 1) == m.count

/-- Well-formed field ranges of a stored meta record. -/
def metaBoundB (m : MetaValue) : Bool :=
  decide (m.count < 2 ^ 64 ∧ m.left_index < 2 ^ 64 ∧ m.right_index < 2 ^ 64)

/-- Every meta record stored in the database satisfies the cursor/count
equation and its field ranges. -/
def dbMetaOK (db : DB) : Bool :=
  db.meta.all (fun e => metaEqB e.2 && metaBoundB e.2)

/-- The per-operation commit discipline that actually holds (claim C3
amended): single-batch operations commit exactly once on `OK` and nothing
otherwise; `RPoplpush` may return `OK` with no commit (rotation of a
one-element list); `LTrim` may return `OK` with zero commits (stale list or
empty window), with one commit (missing key: the `RPush` create), or with
two separate commits (meta invalidation, then the `RPush` of the
survivors), and a failure of its second phase leaves the first phase
committed. -/
def commitDiscipline (db : DB) (call : OpCall) (r : Status × DB) : Prop :=
  match call with
  | .lpush _ _ | .rpush _ _ =>
    (r.1 = .ok ∧ r.2.commits = db.commits + 1) ∨ (r.1 = .berr ∧ r.2 = db)
  | .ltrim _ _ _ =>
    (r.1 = .ok ∧ r.2 = db) ∨
    (r.1 = .ok ∧ r.2.commits = db.commits + 1) ∨
    (r.1 = .ok ∧ r.2.commits = db.commits + 2) ∨
    (r.1 = .berr ∧ r.2 = db) ∨
    (r.1 = .berr ∧ r.2.commits = db.commits + 1)
  | .rpoplpush _ _ =>
    (r.1 = .notFound ∧ r.2 = db) ∨ (r.1 = .ok ∧ r.2 = db) ∨
    (r.1 = .ok ∧ r.2.commits = db.commits + 1) ∨ (r.1 = .berr ∧ r.2 = db)
  | _ =>
    (r.1 = .notFound ∧ r.2 = db) ∨
    (r.1 = .ok ∧ r.2.commits = db.commits + 1) ∨ (r.1 = .berr ∧ r.2 = db)

/-- A spec-side restatement of `LLen` (claim C8 amended): `count` on a
live list; `0` plus not-found on a stale or empty one; not-found with the
output parameter untouched on a missing key. -/
def llenSpec (db : DB) (now : Nat) (key : Bytes) (len0 : Nat) : Status × Nat :=
  match metaGet db key with
  | none => (.notFound, len0)
  | some m =>
    if isStale m now = true ∨ m.count = 0 then (.notFound, 0) else (.ok, m.count)

/-- The live elements of a list as point reads at logical indices
`left_index + 1 … left_index + count`, head first. -/
def readList (db : DB) (k : Bytes) : List Bytes :=
  match metaGet db k with
  | none => []
  | some m =>
    (List.range m.count).map (fun j => (dataGet db ⟨k, m.version, m.left_index + 1 + j⟩).getD [])

/-- Concrete key for the counterexample states. -/
def exKey : Bytes := [107]

/-- Concrete one-element list: `RPush("k", [[97]])` from scratch. -/
def exDB1 : DB := (rpush emptyDB 0 [] exKey [[97]]).2.1

/-- Concrete two-element list: `RPush("k", [[97], [98]])` from scratch. -/
def exDB2 : DB := (rpush emptyDB 0 [] exKey [[97], [98]]).2.1

/-- Concrete three-element list: `RPush("k", [[97], [98], [99]])`. -/
def exDB3 : DB := (rpush emptyDB 0 [] exKey [[97], [98], [99]]).2.1

/-- Concrete list `[[120], [97], [120]]` (x, a, x). -/
def exDBxax : DB := (rpush emptyDB 0 [] exKey [[120], [97], [120]]).2.1

/-- The state after `LRem(k, 0, [120])` on `exDBxax`: one live element
`[97]`, with same-version orphan records left outside the cursors. -/
def exDBorphan : DB := (lrem exDBxax 0 [] exKey 0 [120]).2.1

/-- The meta record of `exDBorphan`. -/
def exMetaOrphan : MetaValue :=
  { count := 1, version := 1, timestamp := 0,
    left_index := 9223372036854775809, right_index := 9223372036854775811 }

/-- Whether a batch record touches only the data column family. -/
def BOp.isDataOp : BOp → Bool
  | .putMeta _ _ => false
  | .putData _ _ => true
  | .delData _ => true

theorem bytesCmp_self (k : Bytes) : bytesCmp k k = Ordering.eq := by
  induction k with
  | nil => rfl
  | cons a as ih => simp [bytesCmp, ih]

/-- Claim C2.  The pivot/target matching test of `LInsert` and `LRem` is
`strcmp`, which stops at the first embedded zero byte: the distinct
payloads `[97, 0, 99]` and `[97, 0, 98]` compare equal, and `LRem` on a
list holding only `[97, 0, 99]` removes it when asked for `[97, 0, 98]`.
The spec's design note calls the `strcmp` a latent bug and full-length
byte equality the intent, so the claim is right and the code wrong. -/
theorem C2_strcmp_not_byte_equality :
    strcmpEq [97, 0, 99] [97, 0, 98] = true ∧
    ¬ ([97, 0, 99] : Bytes) = [97, 0, 98] ∧
    (lrem (rpush emptyDB 0 [] exKey [[97, 0, 99]]).2.1 0 [] exKey 0 [97, 0, 98]).1 =
      Status.ok ∧
    (lrem (rpush emptyDB 0 [] exKey [[97, 0, 99]]).2.1 0 [] exKey 0 [97, 0, 98]).2.2 = 1 ∧
    llen (lrem (rpush emptyDB 0 [] exKey [[97, 0, 99]]).2.1 0 [] exKey 0 [97, 0, 98]).2.1
      0 exKey 9 = (Status.notFound, 0) := by
  decide

/-- Claim C4.  `LTrim` does not implement the retained-window semantics:
with the three-element list `[[97], [98], [99]]`, the translated window of
`LTrim(2, 1)` is empty, so the claim demands a list with no live elements,
but the source returns `OK` without touching the state; and `LTrim(-5,
-3)` translates to a window that should retain only the head `[97]`, but
the unclamped start index misaligns the collection loop and all three
elements survive. -/
theorem C4_ltrim_window_code_bug :
    ltrim exDB3 0 [] exKey 2 1 = (Status.ok, exDB3) ∧
    readList exDB3 exKey = [[97], [98], [99]] ∧
    (ltrim exDB3 0 [] exKey (-5) (-3)).1 = Status.ok ∧
    readList (ltrim exDB3 0 [] exKey (-5) (-3)).2 exKey = [[97], [98], [99]] := by
  decide

/-- Claim C8, counterexample.  On a missing key `LLen` returns not-found
but leaves the output parameter untouched (here the caller-supplied `5`),
not set to `0` as the claim states. -/
theorem C8_llen_missing_counterexample :
    llen emptyDB 0 exKey 5 = (Status.notFound, 5) := by
  decide

/-- Claim C8, amended.  `LLen` returns `OK` with the count on a live list;
not-found with the output set to `0` on a stale or empty list; not-found
with the output parameter left unmodified on a missing key. -/
theorem C8_llen_amended (db : DB) (now : Nat) (key : Bytes) (len0 : Nat) :
    llen db now key len0 = llenSpec db now key len0 := by
  unfold llen llenSpec
  cases metaGet db key with
  | none => rfl
  | some m =>
    by_cases hs : isStale m now = true
    · simp [hs]
    · by_cases hc : m.count = 0 <;> simp [hs, hc]

/-- Claim C7, counterexample.  In the reachable state `exDBorphan`
(produced by `RPush` then `LRem`), `LIndex(k, -2)` translates to the
logical index `left_index` — outside the open cursor range — yet returns
`OK` with the orphan record's payload `[97]` instead of not-found: the
source never checks the translated index against the cursors. -/
theorem C7_lindex_orphan_counterexample :
    metaGet exDBorphan exKey = some exMetaOrphan ∧
    translate exMetaOrphan (-2) = exMetaOrphan.left_index ∧
    lindex exDBorphan 0 exKey (-2) = (Status.ok, some [97]) := by
  decide

/-- Claim C7, amended.  On a live list, `LIndex` returns exactly the data
record stored at the translated logical index under the current version —
whether or not that index lies strictly between the cursors — and
not-found exactly when no such record exists; out-of-range indices give
not-found only in states with no same-version orphan record there. -/
theorem C7_lindex_amended (db : DB) (now : Nat) (key : Bytes) (i : Int) (mv : MetaValue)
    (hm : metaGet db key = some mv) (hs : isStale mv now = false) (hc : ¬ mv.count = 0) :
    lindex db now key i =
      match dataGet db ⟨key, mv.version, translate mv i⟩ with
      | some p => (Status.ok, some p)
      | none => (Status.notFound, none) := by
  unfold lindex
  rw [hm]
  simp [hs, hc]

/-- Witness for the amended claim C7, at the orphan state: the record at
the translated index is returned. -/
theorem C7_lindex_amended_witness :
    metaGet exDBorphan exKey = some exMetaOrphan ∧
    isStale exMetaOrphan 0 = false ∧
    ¬ exMetaOrphan.count = 0 ∧
    lindex exDBorphan 0 exKey (-2) = (Status.ok, some [97]) := by
  refine ⟨by decide, by decide, by decide, ?_⟩
  rw [C7_lindex_amended exDBorphan 0 exKey (-2) exMetaOrphan (by decide) (by decide)
    (by decide)]
  decide

/-- Claim C9, counterexample.  In the `source == destination` branch the
output element is assigned before the commit: with a failing final write
(script `[true]`) the operation reports a backend error, the state is
unchanged, and yet the output element already holds the popped payload
`[98]`. -/
theorem C9_element_before_commit_counterexample :
    rpoplpush exDB2 0 [true] exKey exKey = (Status.berr, exDB2, some [98]) := by
  decide

/-- Claim C9, amended.  In the `source ≠ destination` case the output
element is assigned only after the batch commits (any non-`OK` outcome
leaves it unset); in the `source == destination` case it is assigned as
soon as the rightmost payload is read, before the commit, so a failed
write still returns the payload (shown at a second concrete input). -/
theorem C9_element_after_commit_amended :
    (∀ db now fs s d, s = d ∨ (rpoplpush db now fs s d).1 = Status.ok ∨
      (rpoplpush db now fs s d).2.2 = none) ∧
    rpoplpush exDB3 0 [true] exKey exKey = (Status.berr, exDB3, some [99]) := by
  constructor
  · intro db now fs s d
    by_cases hsd : s = d
    · exact Or.inl hsd
    · refine Or.inr ?_
      unfold rpoplpush
      simp only [if_neg hsd]
      cases metaGet db s with
      | none => simp
      | some mvs =>
        simp only
        split
        · simp
        · split
          · simp
          · cases dataGet db ⟨s, mvs.version, u64I ((mvs.right_index : Int) - 1)⟩ with
            | none => simp
            | some t =>
              simp only
              split <;> simp
  · decide

/-- Claim C3, counterexample.  `LTrim` on a live list with a nonempty
window returns `OK` after two separate commits (the meta-invalidation
`Put`, then the `RPush` of the survivors), contradicting the single-commit
policy the claim states. -/
theorem C3_ltrim_two_commits_counterexample :
    (ltrim exDB3 0 [] exKey 0 0).1 = Status.ok ∧
    (ltrim exDB3 0 [] exKey 0 0).2.commits = exDB3.commits + 2 := by
  decide

theorem find?_filter_ne {α β : Type} [DecidableEq α] (l : List (α × β)) (a a' : α)
    (h : ¬ a' = a) :
    (l.filter (fun e => ¬ e.1 = a)).find? (fun e => e.1 = a') =
      l.find? (fun e => e.1 = a') := by
  induction l with
  | nil => rfl
  | cons e l ih =>
    by_cases hek : e.1 = a
    · have he' : ¬ e.1 = a' := by
        intro hh
        exact h (by rw [← hh, hek])
      have hf : List.filter (fun x => ¬ x.1 = a) (e :: l) =
          List.filter (fun x => ¬ x.1 = a) l := by
        simp [List.filter_cons, hek]
      rw [hf, ih]
      have hr : List.find? (fun x => x.1 = a') (e :: l) =
          List.find? (fun x => x.1 = a') l := by
        simp [List.find?, he']
      rw [hr]
    · have hf : List.filter (fun x => ¬ x.1 = a) (e :: l) =
          e :: List.filter (fun x => ¬ x.1 = a) l := by
        simp [List.filter_cons, hek]
      rw [hf]
      by_cases he : e.1 = a'
      · simp [List.find?, he]
      · simp only [List.find?, he, decide_False]
        exact ih

theorem metaGet_applyBatch (db : DB) (l : List BOp) (k : Bytes) :
    metaGet (applyBatch db l) k = metaGet (l.foldl applyBOp db) k := rfl

theorem metaGet_putMeta_same (db : DB) (k : Bytes) (m : MetaValue) :
    metaGet (applyBOp db (.putMeta k m)) k = some m := by
  simp [applyBOp, metaGet, List.find?]

theorem metaGet_putMeta_other (db : DB) (k k' : Bytes) (m : MetaValue) (h : ¬ k' = k) :
    metaGet (applyBOp db (.putMeta k m)) k' = metaGet db k' := by
  have h2 : ¬ (k = k') := fun he => h he.symm
  simp only [applyBOp, metaGet]
  rw [List.find?_cons_of_neg _ (by simp [h2]), find?_filter_ne db.meta k k' h]

theorem metaGet_putData (db : DB) (dk : DataKeyT) (v : Bytes) (k : Bytes) :
    metaGet (applyBOp db (.putData dk v)) k = metaGet db k := rfl

theorem metaGet_delData (db : DB) (dk : DataKeyT) (k : Bytes) :
    metaGet (applyBOp db (.delData dk)) k = metaGet db k := rfl

theorem dataGet_putData_same (db : DB) (dk : DataKeyT) (v : Bytes) :
    dataGet (applyBOp db (.putData dk v)) dk = some v := by
  simp [applyBOp, dataGet, List.find?]

theorem dataGet_putData_other (db : DB) (dk dk' : DataKeyT) (v : Bytes) (h : ¬ dk' = dk) :
    dataGet (applyBOp db (.putData dk v)) dk' = dataGet db dk' := by
  have h2 : ¬ (dk = dk') := fun he => h he.symm
  simp only [applyBOp, dataGet]
  rw [List.find?_cons_of_neg _ (by simp [h2]), find?_filter_ne db.data dk dk' h]

theorem dataGet_delData_same (db : DB) (dk : DataKeyT) :
    dataGet (applyBOp db (.delData dk)) dk = none := by
  have : ∀ l : List (DataKeyT × Bytes),
      (l.filter (fun e => ¬ e.1 = dk)).find? (fun e => e.1 = dk) = none := by
    intro l
    induction l with
    | nil => rfl
    | cons e l ih => by_cases he : e.1 = dk <;> simp [List.filter_cons, List.find?, he, ih]
  simp only [applyBOp, dataGet]
  rw [this db.data]

theorem dataGet_delData_other (db : DB) (dk dk' : DataKeyT) (h : ¬ dk' = dk) :
    dataGet (applyBOp db (.delData dk)) dk' = dataGet db dk' := by
  simp only [applyBOp, dataGet]
  rw [find?_filter_ne db.data dk dk' h]

theorem dataGet_putMeta (db : DB) (k : Bytes) (m : MetaValue) (dk : DataKeyT) :
    dataGet (applyBOp db (.putMeta k m)) dk = dataGet db dk := rfl

/-- Claim C10.  `LPush` with no values on a missing key returns `OK` with
length `0` and commits a meta record with `count = 0` at the initial
cursor positions, after which `LLen`, `LRange` and `LPop` all report the
key as not-found. -/
theorem C10_empty_lpush_missing_key (db : DB) (now : Nat) (k : Bytes) (len0 : Nat)
    (hm : metaGet db k = none) :
    (lpush db now [] k []).1 = Status.ok ∧
    (lpush db now [] k []).2.2 = 0 ∧
    metaGet (lpush db now [] k []).2.1 k =
      some ⟨0, 1, 0, initialLeftIndex, initialRightIndex⟩ ∧
    llen (lpush db now [] k []).2.1 now k len0 = (Status.notFound, 0) ∧
    lrange (lpush db now [] k []).2.1 now k 0 (-1) = (Status.notFound, []) ∧
    (lpop (lpush db now [] k []).2.1 now [] k).1 = Status.notFound ∧
    (rpush db now [] k []).1 = Status.ok ∧
    (rpush db now [] k []).2.2 = 0 ∧
    metaGet (rpush db now [] k []).2.1 k =
      some ⟨0, 1, 0, initialLeftIndex, initialRightIndex⟩ ∧
    llen (rpush db now [] k []).2.1 now k len0 = (Status.notFound, 0) := by
  have hml : lpush db now [] k [] =
      (Status.ok, applyBatch db [.putMeta k ⟨0, 1, 0, initialLeftIndex, initialRightIndex⟩],
        0) := by
    unfold lpush
    rw [hm]
    simp [pushLeftLoopF, failHead, freshMeta, updateVersion, u32I, u64I,
      initialLeftIndex, initialRightIndex]
  have hmr : rpush db now [] k [] =
      (Status.ok, applyBatch db [.putMeta k ⟨0, 1, 0, initialLeftIndex, initialRightIndex⟩],
        0) := by
    unfold rpush
    rw [hm]
    simp [pushRightLoopF, failHead, freshMeta, updateVersion, u32I, u64I,
      initialLeftIndex, initialRightIndex]
  have hget : metaGet
      (applyBatch db [.putMeta k ⟨0, 1, 0, initialLeftIndex, initialRightIndex⟩]) k =
      some ⟨0, 1, 0, initialLeftIndex, initialRightIndex⟩ := by
    rw [metaGet_applyBatch]
    exact metaGet_putMeta_same db k _
  refine ⟨by rw [hml], by rw [hml], by rw [hml]; exact hget, ?_, ?_, ?_,
    by rw [hmr], by rw [hmr], by rw [hmr]; exact hget, ?_⟩
  · rw [hml]; unfold llen; rw [hget]; simp [isStale]
  · rw [hml]; unfold lrange; rw [hget]; simp [isStale]
  · rw [hml]; unfold lpop; rw [hget]; simp [isStale]
  · rw [hmr]; unfold llen; rw [hget]; simp [isStale]

/-- Witness for claim C10, on the empty database. -/
theorem C10_empty_lpush_missing_key_witness :
    metaGet emptyDB exKey = none ∧
    metaGet (lpush emptyDB 7 [] exKey []).2.1 exKey =
      some ⟨0, 1, 0, initialLeftIndex, initialRightIndex⟩ ∧
    llen (lpush emptyDB 7 [] exKey []).2.1 7 exKey 3 = (Status.notFound, 0) := by
  refine ⟨by decide, ?_, ?_⟩
  · exact (C10_empty_lpush_missing_key emptyDB 7 exKey 3 (by decide)).2.2.1
  · exact (C10_empty_lpush_missing_key emptyDB 7 exKey 3 (by decide)).2.2.2.1

theorem dkCmp_same (k : Bytes) (v w i j : Nat) :
    dkCmp ⟨k, v, i⟩ ⟨k, w, j⟩ =
      (if v < w then Ordering.lt else if w < v then Ordering.gt
       else if i < j then Ordering.lt else if j < i then Ordering.gt else Ordering.eq) := by
  simp [dkCmp, bytesCmp_self]

/-- Claim C6.  From a missing key, `RPush(k, [a, b, c])` then
`LRange(k, 0, -1)` yields `[a, b, c]`, and `LPush(k, [a, b, c])` then
`LRange(k, 0, -1)` yields `[c, b, a]`, for all payloads `a`, `b`, `c`. -/
theorem C6_push_then_range (k a b c : Bytes) :
    (rpush emptyDB 0 [] k [a, b, c]).1 = Status.ok ∧
    (rpush emptyDB 0 [] k [a, b, c]).2.2 = 3 ∧
    lrange (rpush emptyDB 0 [] k [a, b, c]).2.1 0 k 0 (-1) = (Status.ok, [a, b, c]) ∧
    (lpush emptyDB 0 [] k [a, b, c]).1 = Status.ok ∧
    (lpush emptyDB 0 [] k [a, b, c]).2.2 = 3 ∧
    lrange (lpush emptyDB 0 [] k [a, b, c]).2.1 0 k 0 (-1) = (Status.ok, [c, b, a]) := by
  have hr : rpush emptyDB 0 [] k [a, b, c] =
      (Status.ok,
        { meta := [(k, ⟨3, 1, 0, 9223372036854775807, 9223372036854775811⟩)],
          data := [(⟨k, 1, 9223372036854775810⟩, c), (⟨k, 1, 9223372036854775809⟩, b),
                   (⟨k, 1, 9223372036854775808⟩, a)],
          commits := 1 }, 3) := by
    simp only [rpush, metaGet, emptyDB, failHead, List.find?]
    simp only [pushRightLoopF, modifyRightIndex]
    simp only [freshMeta, updateVersion, u32I, initialLeftIndex, initialRightIndex]
    norm_num [u64I, applyBatch, applyBOp, List.filter_cons, DataKeyT.mk.injEq]
    simp [Int.toNat_ofNat]
  have hl : lpush emptyDB 0 [] k [a, b, c] =
      (Status.ok,
        { meta := [(k, ⟨3, 1, 0, 9223372036854775804, 9223372036854775808⟩)],
          data := [(⟨k, 1, 9223372036854775805⟩, c), (⟨k, 1, 9223372036854775806⟩, b),
                   (⟨k, 1, 9223372036854775807⟩, a)],
          commits := 1 }, 3) := by
    simp only [lpush, metaGet, emptyDB, failHead, List.find?]
    simp only [pushLeftLoopF, modifyLeftIndex]
    simp only [freshMeta, updateVersion, u32I, initialLeftIndex, initialRightIndex]
    norm_num [u64I, applyBatch, applyBOp, List.filter_cons, DataKeyT.mk.injEq]
    simp [Int.toNat_ofNat]
  have hrr : lrange
      { meta := [(k, ⟨3, 1, 0, 9223372036854775807, 9223372036854775811⟩)],
        data := [(⟨k, 1, 9223372036854775810⟩, c), (⟨k, 1, 9223372036854775809⟩, b),
                 (⟨k, 1, 9223372036854775808⟩, a)],
        commits := 1 } 0 k 0 (-1) = (Status.ok, [a, b, c]) := by
    simp only [lrange, metaGet, List.find?]
    norm_num [isStale, translate, u64I, newIter, iterEntries, sortedInsert, dkLe, dkLt,
      dkCmp_same, DIter.seek, List.findIdx, List.findIdx.go, rangeLoop, DIter.valid,
      DIter.next, DIter.value, Int.toNat_ofNat]
    simp +decide [Int.toNat_ofNat]
  have hlr : lrange
      { meta := [(k, ⟨3, 1, 0, 9223372036854775804, 9223372036854775808⟩)],
        data := [(⟨k, 1, 9223372036854775805⟩, c), (⟨k, 1, 9223372036854775806⟩, b),
                 (⟨k, 1, 9223372036854775807⟩, a)],
        commits := 1 } 0 k 0 (-1) = (Status.ok, [c, b, a]) := by
    simp only [lrange, metaGet, List.find?]
    norm_num [isStale, translate, u64I, newIter, iterEntries, sortedInsert, dkLe, dkLt,
      dkCmp_same, DIter.seek, List.findIdx, List.findIdx.go, rangeLoop, DIter.valid,
      DIter.next, DIter.value, Int.toNat_ofNat]
    simp +decide [Int.toNat_ofNat]
  rw [hr, hl]
  exact ⟨rfl, rfl, hrr, rfl, rfl, hlr⟩

theorem dataGet_applyBatch (db : DB) (l : List BOp) (dk : DataKeyT) :
    dataGet (applyBatch db l) dk = dataGet (l.foldl applyBOp db) dk := rfl

theorem map_getD_range (l : List Bytes) :
    (List.range l.length).map (fun j => l.getD j []) = l := by
  induction l with
  | nil => rfl
  | cons a t ih =>
    rw [List.length_cons, List.range_succ_eq_map, List.map_cons, List.map_map]
    have h0 : (a :: t).getD 0 [] = a := rfl
    have hc : ((fun j => (a :: t).getD j []) ∘ Nat.succ) = (fun j => t.getD j []) := by
      funext j
      simp [List.getD_cons_succ]
    rw [h0, hc, ih]

/-- Claim C5.  On a non-stale list `vs ++ [x]` with `count ≥ 1`,
`RPoplpush(k, k)` returns the rightmost payload `x` and rotates the list to
`x :: vs` (the last element becomes first, all others keep their relative
order, `count` is unchanged); when `count = 1` (`vs = []`) the stored state
is literally unchanged — no write is performed — and the payload is still
returned. -/
theorem C5_rpoplpush_rotation (db : DB) (now : Nat) (k : Bytes) (vs : List Bytes)
    (x : Bytes) (m : MetaValue)
    (hm : metaGet db k = some m)
    (hstale : isStale m now = false)
    (hcount : m.count = vs.length + 1)
    (hright : m.right_index = m.left_index + m.count + 1)
    (hlb : 1 ≤ m.left_index)
    (hrb : m.right_index < 2 ^ 64)
    (hdata : ∀ j, j < m.count → dataGet db ⟨k, m.version, m.left_index + 1 + j⟩ =
      some ((vs ++ [x]).getD j [])) :
    (rpoplpush db now [] k k).1 = Status.ok ∧
    (rpoplpush db now [] k k).2.2 = some x ∧
    readList (rpoplpush db now [] k k).2.1 k = x :: vs ∧
    (∀ m2, metaGet (rpoplpush db now [] k k).2.1 k = some m2 → m2.count = m.count) ∧
    (vs = [] → (rpoplpush db now [] k k).2.1 = db) := by
  obtain ⟨c, v, t, l, r⟩ := m
  simp only at hcount hright hlb hrb hdata hstale
  subst hcount hright
  cases vs with
  | nil =>
    have hidx : u64I ((l : Int) + 1) = l + 1 + ([] : List Bytes).length := by
      simp [u64I]
      omega
    have hget : dataGet db ⟨k, v, l + 1 + ([] : List Bytes).length⟩ = some x := by
      have h1 := hdata 0 (by omega)
      simpa using h1
    have hrp : rpoplpush db now [] k k = (Status.ok, db, some x) := by
      unfold rpoplpush
      rw [if_pos rfl, hm]
      simp only [hstale, Bool.false_eq_true, if_false]
      norm_num
      rw [hidx, hget]
    refine ⟨by rw [hrp], by rw [hrp], ?_, ?_, fun _ => by rw [hrp]⟩
    · rw [hrp]
      unfold readList
      rw [hm]
      have h0 := hdata 0 (by omega)
      simp only [Nat.add_zero] at h0
      simp [h0, List.range_succ, List.range_zero]
    · intro m2 hm2
      rw [hrp] at hm2
      simp only at hm2
      rw [hm] at hm2
      cases hm2
      rfl
  | cons b bs =>
    have hrb2 : l + bs.length + 3 < 2 ^ 64 := by
      simp only [List.length_cons] at hrb
      omega
    have hidx : u64I ((l : Int) + ((bs.length : Int) + 1 + 1)) = l + 1 + (b :: bs).length := by
      simp [u64I, List.length_cons]
      omega
    have hget : dataGet db ⟨k, v, l + 1 + (b :: bs).length⟩ = some x := by
      have h1 := hdata (b :: bs).length (by omega)
      have h2 : ((b :: bs) ++ [x]).getD (b :: bs).length [] = x := by
        simp
      rw [h2] at h1
      exact h1
    have hmv : modifyLeftIndex
        (modifyRightIndex ⟨bs.length + 1 + 1, v, t, l, l + (bs.length + 1 + 1) + 1⟩ (-1)) 1 =
        ⟨bs.length + 1 + 1, v, t, l - 1, l + (bs.length + 1) + 1⟩ := by
      simp only [modifyLeftIndex, modifyRightIndex]
      rw [MetaValue.mk.injEq]
      refine ⟨rfl, rfl, rfl, by simp [u64I]; omega, by simp [u64I]; omega⟩
    have hrp : rpoplpush db now [] k k =
        (Status.ok,
          applyBatch db [BOp.delData ⟨k, v, l + 1 + (b :: bs).length⟩,
            BOp.putData ⟨k, v, l⟩ x,
            BOp.putMeta k ⟨(b :: bs).length + 1, v, t, l - 1, l + (b :: bs).length + 1⟩],
          some x) := by
      unfold rpoplpush
      rw [if_pos rfl, hm]
      simp only [hstale, Bool.false_eq_true, if_false]
      norm_num
      rw [hidx, hget]
      simp only [List.length_cons, Nat.add_eq_zero, Nat.succ_ne_zero, and_false, if_false,
        failHead, List.headD]
      norm_num
      rw [hmv]
    have hpm : metaGet (applyBatch db [BOp.delData ⟨k, v, l + 1 + (b :: bs).length⟩,
        BOp.putData ⟨k, v, l⟩ x,
        BOp.putMeta k ⟨(b :: bs).length + 1, v, t, l - 1, l + (b :: bs).length + 1⟩]) k =
        some ⟨(b :: bs).length + 1, v, t, l - 1, l + (b :: bs).length + 1⟩ := by
      rw [metaGet_applyBatch]
      simp only [List.foldl_cons, List.foldl_nil]
      rw [metaGet_putMeta_same]
    refine ⟨by rw [hrp], by rw [hrp], ?_, ?_, fun hc => (List.cons_ne_nil b bs hc).elim⟩
    · rw [hrp]
      unfold readList
      simp only
      rw [hpm]
      rw [← map_getD_range (x :: b :: bs)]
      simp only [List.length_cons]
      apply List.map_congr_left
      intro j hj
      rw [List.mem_range] at hj
      have hdg : dataGet (applyBatch db [BOp.delData ⟨k, v, l + 1 + (b :: bs).length⟩,
          BOp.putData ⟨k, v, l⟩ x,
          BOp.putMeta k ⟨(b :: bs).length + 1, v, t, l - 1, l + (b :: bs).length + 1⟩])
          ⟨k, v, l - 1 + 1 + j⟩ = some ((x :: b :: bs).getD j []) := by
        rw [dataGet_applyBatch]
        simp only [List.foldl_cons, List.foldl_nil]
        rw [dataGet_putMeta]
        cases j with
        | zero =>
          have hl0 : l - 1 + 1 + 0 = l := by omega
          rw [hl0, dataGet_putData_same]
          rfl
        | succ jj =>
          have hl1 : l - 1 + 1 + (jj + 1) = l + 1 + jj := by omega
          rw [hl1]
          rw [dataGet_putData_other _ _ _ _ (by simp [DataKeyT.mk.injEq]; omega)]
          rw [dataGet_delData_other _ _ _ (by simp [DataKeyT.mk.injEq, List.length_cons]; omega)]
          have h1 := hdata jj (by simp [List.length_cons]; omega)
          have h2 : ((b :: bs) ++ [x]).getD jj [] = (b :: bs).getD jj [] := by
            rw [List.getD_append]
            simp only [List.length_cons]
            omega
          rw [h2] at h1
          rw [h1]
          rfl
      show (dataGet (applyBatch db [BOp.delData ⟨k, v, l + 1 + (b :: bs).length⟩,
          BOp.putData ⟨k, v, l⟩ x,
          BOp.putMeta k ⟨(b :: bs).length + 1, v, t, l - 1, l + (b :: bs).length + 1⟩])
          ⟨k, v, l - 1 + 1 + j⟩).getD [] = (x :: b :: bs).getD j []
      rw [hdg]
      rfl
    · intro m2 hm2
      rw [hrp] at hm2
      simp only at hm2
      rw [hpm] at hm2
      cases hm2
      simp

/-- Witness for claim C5: rotating the concrete list `[[97], [98], [99]]`
returns `[99]` and leaves `[[99], [97], [98]]`; rotating the one-element
list `[[97]]` returns `[97]` and leaves the stored state unchanged. -/
theorem C5_rpoplpush_rotation_witness :
    (metaGet exDB3 exKey = some ⟨3, 1, 0, 9223372036854775807, 9223372036854775811⟩ ∧
      (rpoplpush exDB3 0 [] exKey exKey).1 = Status.ok ∧
      (rpoplpush exDB3 0 [] exKey exKey).2.2 = some [99] ∧
      readList (rpoplpush exDB3 0 [] exKey exKey).2.1 exKey = [[99], [97], [98]]) ∧
    (metaGet exDB1 exKey = some ⟨1, 1, 0, 9223372036854775807, 9223372036854775809⟩ ∧
      (rpoplpush exDB1 0 [] exKey exKey).1 = Status.ok ∧
      (rpoplpush exDB1 0 [] exKey exKey).2.2 = some [97] ∧
      (rpoplpush exDB1 0 [] exKey exKey).2.1 = exDB1) := by
  have h := C5_rpoplpush_rotation exDB3 0 exKey [[97], [98]] [99]
    ⟨3, 1, 0, 9223372036854775807, 9223372036854775811⟩ (by decide) (by decide) (by decide)
    (by decide) (by decide) (by decide) (by decide)
  have h1 := C5_rpoplpush_rotation exDB1 0 exKey [] [97]
    ⟨1, 1, 0, 9223372036854775807, 9223372036854775809⟩ (by decide) (by decide) (by decide)
    (by decide) (by decide) (by decide) (by decide)
  exact ⟨⟨by decide, h.1, h.2.1, h.2.2.1⟩,
    ⟨by decide, h1.1, h1.2.1, h1.2.2.2.2 rfl⟩⟩

theorem u64I_lt (x : Int) : u64I x < 2 ^ 64 := by
  simp [u64I]
  omega

theorem meta_applyBOp_dataOp (db : DB) (op : BOp) (h : op.isDataOp = true) :
    (applyBOp db op).meta = db.meta := by
  cases op with
  | putMeta k m => simp [BOp.isDataOp] at h
  | putData dk v => rfl
  | delData dk => rfl

theorem meta_foldl_dataOps (l : List BOp) (db : DB)
    (h : ∀ op ∈ l, op.isDataOp = true) :
    (l.foldl applyBOp db).meta = db.meta := by
  induction l generalizing db with
  | nil => rfl
  | cons op rest ih =>
    rw [List.foldl_cons, ih _ (fun o ho => h o (List.mem_cons_of_mem _ ho)),
      meta_applyBOp_dataOp db op (h op (List.mem_cons_self op rest))]

theorem dbMetaOK_of_meta_eq (x y : DB) (h : x.meta = y.meta) :
    dbMetaOK x = dbMetaOK y := by
  simp [dbMetaOK, h]

theorem dbMetaOK_get (db : DB) (k : Bytes) (m : MetaValue) (hdb : dbMetaOK db = true)
    (hm : metaGet db k = some m) : metaEqB m = true ∧ metaBoundB m = true := by
  unfold metaGet at hm
  cases hf : db.meta.find? (fun e => e.1 = k) with
  | none => rw [hf] at hm; cases hm
  | some e =>
    rw [hf] at hm
    cases hm
    have hmem : e ∈ db.meta := List.mem_of_find?_eq_some hf
    simp only [dbMetaOK, List.all_eq_true] at hdb
    have := hdb e hmem
    simpa using this

theorem dbMetaOK_putMeta (db : DB) (k : Bytes) (m : MetaValue) (hdb : dbMetaOK db = true)
    (h1 : metaEqB m = true) (h2 : metaBoundB m = true) :
    dbMetaOK (applyBOp db (.putMeta k m)) = true := by
  simp only [dbMetaOK, applyBOp, List.all_cons, List.all_eq_true, Bool.and_eq_true] at *
  refine ⟨⟨h1, h2⟩, ?_⟩
  intro e he
  exact hdb e (List.mem_of_mem_filter he)

theorem metaEqB_initial (m : MetaValue) : metaEqB (initialMetaValue m) = true := by
  have h : metaEqB (initialMetaValue m) =
      metaEqB ⟨0, 0, 0, initialLeftIndex, initialRightIndex⟩ := rfl
  rw [h]
  decide

theorem metaBoundB_initial (m : MetaValue) : metaBoundB (initialMetaValue m) = true := by
  have h : metaBoundB (initialMetaValue m) =
      metaBoundB ⟨0, 0, 0, initialLeftIndex, initialRightIndex⟩ := rfl
  rw [h]
  decide

theorem metaEqB_setTs (m : MetaValue) (now : Nat) (ttl : Int) :
    metaEqB (setRelativeTimestamp m now ttl) = metaEqB m := rfl

theorem pushLeftLoopE_meta (k : Bytes) (ver : Nat) (vs : List Bytes) (mv : MetaValue)
    (hl : mv.left_index < 2 ^ 64) (hc : mv.count < 2 ^ 64) :
    (pushLeftLoopE mv k ver vs).1 =
      { mv with left_index := u64I ((mv.left_index : Int) - vs.length),
                count := u64I ((mv.count : Int) + vs.length) } := by
  induction vs generalizing mv with
  | nil =>
    simp only [pushLeftLoopE, List.length_nil]
    rw [MetaValue.mk.injEq]
    refine ⟨by simp [u64I]; omega, rfl, rfl, by simp [u64I]; omega, rfl⟩
  | cons v rest ih =>
    simp only [pushLeftLoopE]
    rw [ih _ (by simp [modifyCount, modifyLeftIndex]; exact u64I_lt _)
      (by simp [modifyCount, modifyLeftIndex]; exact u64I_lt _)]
    simp only [modifyCount, modifyLeftIndex, List.length_cons]
    rw [MetaValue.mk.injEq]
    refine ⟨by simp [u64I]; omega, rfl, rfl, by simp [u64I]; omega, rfl⟩

theorem dbMetaOK_foldl (l : List BOp) (db : DB) (hdb : dbMetaOK db = true)
    (h : ∀ k m, BOp.putMeta k m ∈ l → metaEqB m = true ∧ metaBoundB m = true) :
    dbMetaOK (l.foldl applyBOp db) = true := by
  induction l generalizing db with
  | nil => exact hdb
  | cons op rest ih =>
    rw [List.foldl_cons]
    refine ih _ ?_ (fun k m hm => h k m (List.mem_cons_of_mem _ hm))
    cases op with
    | putMeta k m =>
      exact dbMetaOK_putMeta db k m hdb (h k m (List.mem_cons_self _ _)).1
        (h k m (List.mem_cons_self _ _)).2
    | putData dk v =>
      rw [dbMetaOK_of_meta_eq (applyBOp db (BOp.putData dk v)) db rfl]
      exact hdb
    | delData dk =>
      rw [dbMetaOK_of_meta_eq (applyBOp db (BOp.delData dk)) db rfl]
      exact hdb

theorem dbMetaOK_applyBatch (db : DB) (l : List BOp) (hdb : dbMetaOK db = true)
    (h : ∀ k m, BOp.putMeta k m ∈ l → metaEqB m = true ∧ metaBoundB m = true) :
    dbMetaOK (applyBatch db l) = true := by
  rw [dbMetaOK_of_meta_eq (applyBatch db l) (l.foldl applyBOp db) rfl]
  exact dbMetaOK_foldl l db hdb h

theorem pushLeftLoopE_dataOps (k : Bytes) (ver : Nat) (vs : List Bytes) (mv : MetaValue) :
    ∀ op ∈ (pushLeftLoopE mv k ver vs).2, op.isDataOp = true := by
  induction vs generalizing mv with
  | nil => intro op hop; cases hop
  | cons v rest ih =>
    intro op hop
    simp only [pushLeftLoopE, List.mem_cons] at hop
    rcases hop with h | h
    · rw [h]; rfl
    · exact ih _ op h

theorem pushRightLoopE_dataOps (k : Bytes) (ver : Nat) (vs : List Bytes) (mv : MetaValue) :
    ∀ op ∈ (pushRightLoopE mv k ver vs).2, op.isDataOp = true := by
  induction vs generalizing mv with
  | nil => intro op hop; cases hop
  | cons v rest ih =>
    intro op hop
    simp only [pushRightLoopE, List.mem_cons] at hop
    rcases hop with h | h
    · rw [h]; rfl
    · exact ih _ op h

theorem pushLeftLoopF_dataOps (k : Bytes) (ver : Nat) (vs : List Bytes) (mv : MetaValue) :
    ∀ op ∈ (pushLeftLoopF mv k ver vs).2, op.isDataOp = true := by
  induction vs generalizing mv with
  | nil => intro op hop; cases hop
  | cons v rest ih =>
    intro op hop
    simp only [pushLeftLoopF, List.mem_cons] at hop
    rcases hop with h | h
    · rw [h]; rfl
    · exact ih _ op h

theorem pushRightLoopF_dataOps (k : Bytes) (ver : Nat) (vs : List Bytes) (mv : MetaValue) :
    ∀ op ∈ (pushRightLoopF mv k ver vs).2, op.isDataOp = true := by
  induction vs generalizing mv with
  | nil => intro op hop; cases hop
  | cons v rest ih =>
    intro op hop
    simp only [pushRightLoopF, List.mem_cons] at hop
    rcases hop with h | h
    · rw [h]; rfl
    · exact ih _ op h

theorem writeAsc_dataOps (k : Bytes) (ver : Nat) (i : Nat) (vs : List Bytes) :
    ∀ op ∈ writeAsc k ver i vs, op.isDataOp = true := by
  induction vs generalizing i with
  | nil => intro op hop; cases hop
  | cons v rest ih =>
    intro op hop
    simp only [writeAsc, List.mem_cons] at hop
    rcases hop with h | h
    · rw [h]; rfl
    · exact ih _ op h

theorem lremRewriteL_dataOps (fuel : Nat) (it : DIter) (cur start left rest : Nat)
    (k : Bytes) (ver : Nat) (t : Bytes) :
    ∀ op ∈ lremRewriteL fuel it cur start left rest k ver t, op.isDataOp = true := by
  induction fuel generalizing it cur left rest with
  | zero => intro op hop; cases hop
  | succ n ih =>
    intro op hop
    rw [lremRewriteL] at hop
    split at hop
    · split at hop
      · exact ih _ _ _ _ op hop
      · simp only [List.mem_cons] at hop
        rcases hop with h | h
        · rw [h]; rfl
        · exact ih _ _ _ _ op h
    · cases hop

theorem lremRewriteR_dataOps (fuel : Nat) (it : DIter) (cur stop rightSlot rest : Nat)
    (k : Bytes) (ver : Nat) (t : Bytes) :
    ∀ op ∈ lremRewriteR fuel it cur stop rightSlot rest k ver t, op.isDataOp = true := by
  induction fuel generalizing it cur rightSlot rest with
  | zero => intro op hop; cases hop
  | succ n ih =>
    intro op hop
    rw [lremRewriteR] at hop
    split at hop
    · split at hop
      · exact ih _ _ _ _ op hop
      · simp only [List.mem_cons] at hop
        rcases hop with h | h
        · rw [h]; rfl
        · exact ih _ _ _ _ op h
    · cases hop

theorem pushRightLoopE_meta (k : Bytes) (ver : Nat) (vs : List Bytes) (mv : MetaValue)
    (hr : mv.right_index < 2 ^ 64) (hc : mv.count < 2 ^ 64) :
    (pushRightLoopE mv k ver vs).1 =
      { mv with right_index := u64I ((mv.right_index : Int) + vs.length),
                count := u64I ((mv.count : Int) + vs.length) } := by
  induction vs generalizing mv with
  | nil =>
    simp only [pushRightLoopE, List.length_nil]
    rw [MetaValue.mk.injEq]
    refine ⟨by simp [u64I]; omega, rfl, rfl, rfl, by simp [u64I]; omega⟩
  | cons v rest ih =>
    simp only [pushRightLoopE]
    rw [ih _ (by simp [modifyCount, modifyRightIndex]; exact u64I_lt _)
      (by simp [modifyCount, modifyRightIndex]; exact u64I_lt _)]
    simp only [modifyCount, modifyRightIndex, List.length_cons]
    rw [MetaValue.mk.injEq]
    refine ⟨by simp [u64I]; omega, rfl, rfl, rfl, by simp [u64I]; omega⟩

theorem pushLeftLoopF_meta (k : Bytes) (ver : Nat) (vs : List Bytes) (mv : MetaValue)
    (hl : mv.left_index < 2 ^ 64) :
    (pushLeftLoopF mv k ver vs).1 =
      { mv with left_index := u64I ((mv.left_index : Int) - vs.length) } := by
  induction vs generalizing mv with
  | nil =>
    simp only [pushLeftLoopF, List.length_nil]
    rw [MetaValue.mk.injEq]
    refine ⟨rfl, rfl, rfl, by simp [u64I]; omega, rfl⟩
  | cons v rest ih =>
    simp only [pushLeftLoopF]
    rw [ih _ (by simp [modifyLeftIndex]; exact u64I_lt _)]
    simp only [modifyLeftIndex, List.length_cons]
    rw [MetaValue.mk.injEq]
    refine ⟨rfl, rfl, rfl, by simp [u64I]; omega, rfl⟩

theorem pushRightLoopF_meta (k : Bytes) (ver : Nat) (vs : List Bytes) (mv : MetaValue)
    (hr : mv.right_index < 2 ^ 64) :
    (pushRightLoopF mv k ver vs).1 =
      { mv with right_index := u64I ((mv.right_index : Int) + vs.length) } := by
  induction vs generalizing mv with
  | nil =>
    simp only [pushRightLoopF, List.length_nil]
    rw [MetaValue.mk.injEq]
    refine ⟨rfl, rfl, rfl, rfl, by simp [u64I]; omega⟩
  | cons v rest ih =>
    simp only [pushRightLoopF]
    rw [ih _ (by simp [modifyRightIndex]; exact u64I_lt _)]
    simp only [modifyRightIndex, List.length_cons]
    rw [MetaValue.mk.injEq]
    refine ⟨rfl, rfl, rfl, rfl, by simp [u64I]; omega⟩

theorem metaBound_fields (m : MetaValue) (hb : metaBoundB m = true) :
    m.count < 2 ^ 64 ∧ m.left_index < 2 ^ 64 ∧ m.right_index < 2 ^ 64 := by
  simpa [metaBoundB] using hb

theorem metaEq_field (m : MetaValue) (he : metaEqB m = true) :
    u64I (((m.right_index : Int) - m.left_index) - 1) = m.count := by
  simpa [metaEqB] using he

theorem metaEqB_left_count (mv : MetaValue) (d : Int) (he : metaEqB mv = true)
    (hb : metaBoundB mv = true) :
    metaEqB { mv with left_index := u64I ((mv.left_index : Int) - d),
                      count := u64I ((mv.count : Int) + d) } = true ∧
    metaBoundB { mv with left_index := u64I ((mv.left_index : Int) - d),
                         count := u64I ((mv.count : Int) + d) } = true := by
  obtain ⟨h1, h2, h3⟩ := metaBound_fields mv hb
  have he2 := metaEq_field mv he
  constructor
  · simp only [metaEqB, beq_iff_eq]
    simp only [u64I] at he2 ⊢
    omega
  · simp only [metaBoundB, decide_eq_true_eq]
    refine ⟨u64I_lt _, u64I_lt _, h3⟩

theorem metaEqB_right_count (mv : MetaValue) (d : Int) (he : metaEqB mv = true)
    (hb : metaBoundB mv = true) :
    metaEqB { mv with right_index := u64I ((mv.right_index : Int) + d),
                      count := u64I ((mv.count : Int) + d) } = true ∧
    metaBoundB { mv with right_index := u64I ((mv.right_index : Int) + d),
                         count := u64I ((mv.count : Int) + d) } = true := by
  obtain ⟨h1, h2, h3⟩ := metaBound_fields mv hb
  have he2 := metaEq_field mv he
  constructor
  · simp only [metaEqB, beq_iff_eq]
    simp only [u64I] at he2 ⊢
    omega
  · simp only [metaBoundB, decide_eq_true_eq]
    refine ⟨u64I_lt _, h2, u64I_lt _⟩


theorem modifyLC (mv : MetaValue) (d : Int) :
    modifyLeftIndex (modifyCount mv d) d =
      { mv with left_index := u64I ((mv.left_index : Int) - d),
                count := u64I ((mv.count : Int) + d) } := rfl

theorem modifyCL (mv : MetaValue) (d : Int) :
    modifyCount (modifyLeftIndex mv d) d =
      { mv with left_index := u64I ((mv.left_index : Int) - d),
                count := u64I ((mv.count : Int) + d) } := rfl

theorem modifyRC (mv : MetaValue) (d : Int) :
    modifyRightIndex (modifyCount mv d) d =
      { mv with right_index := u64I ((mv.right_index : Int) + d),
                count := u64I ((mv.count : Int) + d) } := rfl

theorem modifyCR (mv : MetaValue) (d : Int) :
    modifyCount (modifyRightIndex mv d) d =
      { mv with right_index := u64I ((mv.right_index : Int) + d),
                count := u64I ((mv.count : Int) + d) } := rfl

theorem metaBoundB_setTs (m : MetaValue) (now : Nat) (ttl : Int) :
    metaBoundB (setRelativeTimestamp m now ttl) = metaBoundB m := rfl

theorem metaEqB_rot (mv : MetaValue) (he : metaEqB mv = true) (hb : metaBoundB mv = true) :
    metaEqB (modifyLeftIndex (modifyRightIndex mv (-1)) 1) = true ∧
    metaBoundB (modifyLeftIndex (modifyRightIndex mv (-1)) 1) = true := by
  obtain ⟨h1, h2, h3⟩ := metaBound_fields mv hb
  have he2 := metaEq_field mv he
  constructor
  · simp only [metaEqB, modifyLeftIndex, modifyRightIndex, beq_iff_eq]
    simp only [u64I] at he2 ⊢
    omega
  · simp only [metaBoundB, modifyLeftIndex, modifyRightIndex, decide_eq_true_eq]
    exact ⟨h1, u64I_lt _, u64I_lt _⟩

theorem metaEqB_freshL (n : Nat) :
    metaEqB { updateVersion (freshMeta n) with
      left_index := u64I (((updateVersion (freshMeta n)).left_index : Int) - n) } = true ∧
    metaBoundB { updateVersion (freshMeta n) with
      left_index := u64I (((updateVersion (freshMeta n)).left_index : Int) - n) } = true := by
  constructor
  · simp only [metaEqB, updateVersion, freshMeta, initialLeftIndex, initialRightIndex,
      beq_iff_eq]
    simp only [u64I]
    omega
  · simp only [metaBoundB, updateVersion, freshMeta, initialLeftIndex, initialRightIndex,
      decide_eq_true_eq]
    refine ⟨by omega, u64I_lt _, by omega⟩

theorem metaEqB_freshR (n : Nat) :
    metaEqB { updateVersion (freshMeta n) with
      right_index := u64I (((updateVersion (freshMeta n)).right_index : Int) + n) } = true ∧
    metaBoundB { updateVersion (freshMeta n) with
      right_index := u64I (((updateVersion (freshMeta n)).right_index : Int) + n) } = true := by
  constructor
  · simp only [metaEqB, updateVersion, freshMeta, initialLeftIndex, initialRightIndex,
      beq_iff_eq]
    simp only [u64I]
    omega
  · simp only [metaBoundB, updateVersion, freshMeta, initialLeftIndex, initialRightIndex,
      decide_eq_true_eq]
    refine ⟨by omega, by omega, u64I_lt _⟩

theorem metaEqB_freshDst : metaEqB (modifyLeftIndex (updateVersion (freshMeta 1)) 1) = true ∧
    metaBoundB (modifyLeftIndex (updateVersion (freshMeta 1)) 1) = true := by
  constructor <;> decide

theorem lpush_metaOK (db : DB) (now : Nat) (fs : List Bool) (k : Bytes) (vs : List Bytes)
    (hdb : dbMetaOK db = true) : dbMetaOK (lpush db now fs k vs).2.1 = true := by
  unfold lpush
  cases hm : metaGet db k with
  | some mv0 =>
    obtain ⟨he0, hb0⟩ := dbMetaOK_get db k mv0 hdb hm
    have hmv1 : metaEqB (if isStale mv0 now = true then initialMetaValue mv0 else mv0) = true ∧
        metaBoundB (if isStale mv0 now = true then initialMetaValue mv0 else mv0) = true := by
      split
      · exact ⟨metaEqB_initial mv0, metaBoundB_initial mv0⟩
      · exact ⟨he0, hb0⟩
    simp only
    split
    · exact hdb
    · apply dbMetaOK_applyBatch db _ hdb
      intro k2 m2 hmem
      rw [List.mem_append] at hmem
      rcases hmem with hmem | hmem
      · have hdata := pushLeftLoopE_dataOps k _ vs _ _ hmem
        simp [BOp.isDataOp] at hdata
      · simp only [List.mem_singleton] at hmem
        injection hmem with hk2 hm2
        subst hm2
        obtain ⟨hb1, hb2, hb3⟩ := metaBound_fields _ hmv1.2
        rw [pushLeftLoopE_meta k _ vs _ hb2 hb1]
        exact metaEqB_left_count _ vs.length hmv1.1 hmv1.2
  | none =>
    simp only
    split
    · exact hdb
    · apply dbMetaOK_applyBatch db _ hdb
      intro k2 m2 hmem
      rw [List.mem_append] at hmem
      rcases hmem with hmem | hmem
      · have hdata := pushLeftLoopF_dataOps k _ vs _ _ hmem
        simp [BOp.isDataOp] at hdata
      · simp only [List.mem_singleton] at hmem
        injection hmem with hk2 hm2
        subst hm2
        have hlb : (updateVersion (freshMeta vs.length)).left_index < 2 ^ 64 := by
          simp only [updateVersion, freshMeta, initialLeftIndex]
          omega
        rw [pushLeftLoopF_meta k _ vs _ hlb]
        exact metaEqB_freshL vs.length

theorem rpush_metaOK (db : DB) (now : Nat) (fs : List Bool) (k : Bytes) (vs : List Bytes)
    (hdb : dbMetaOK db = true) : dbMetaOK (rpush db now fs k vs).2.1 = true := by
  unfold rpush
  cases hm : metaGet db k with
  | some mv0 =>
    obtain ⟨he0, hb0⟩ := dbMetaOK_get db k mv0 hdb hm
    have hmv1 : metaEqB (if isStale mv0 now = true then initialMetaValue mv0 else mv0) = true ∧
        metaBoundB (if isStale mv0 now = true then initialMetaValue mv0 else mv0) = true := by
      split
      · exact ⟨metaEqB_initial mv0, metaBoundB_initial mv0⟩
      · exact ⟨he0, hb0⟩
    simp only
    split
    · exact hdb
    · apply dbMetaOK_applyBatch db _ hdb
      intro k2 m2 hmem
      rw [List.mem_append] at hmem
      rcases hmem with hmem | hmem
      · have hdata := pushRightLoopE_dataOps k _ vs _ _ hmem
        simp [BOp.isDataOp] at hdata
      · simp only [List.mem_singleton] at hmem
        injection hmem with hk2 hm2
        subst hm2
        obtain ⟨hb1, hb2, hb3⟩ := metaBound_fields _ hmv1.2
        rw [pushRightLoopE_meta k _ vs _ hb3 hb1]
        exact metaEqB_right_count _ vs.length hmv1.1 hmv1.2
  | none =>
    simp only
    split
    · exact hdb
    · apply dbMetaOK_applyBatch db _ hdb
      intro k2 m2 hmem
      rw [List.mem_append] at hmem
      rcases hmem with hmem | hmem
      · have hdata := pushRightLoopF_dataOps k _ vs _ _ hmem
        simp [BOp.isDataOp] at hdata
      · simp only [List.mem_singleton] at hmem
        injection hmem with hk2 hm2
        subst hm2
        have hrb : (updateVersion (freshMeta vs.length)).right_index < 2 ^ 64 := by
          simp only [updateVersion, freshMeta, initialRightIndex]
          omega
        rw [pushRightLoopF_meta k _ vs _ hrb]
        exact metaEqB_freshR vs.length

theorem lpushx_metaOK (db : DB) (now : Nat) (fs : List Bool) (k : Bytes) (v : Bytes)
    (hdb : dbMetaOK db = true) : dbMetaOK (lpushx db now fs k v).2.1 = true := by
  unfold lpushx
  cases hm : metaGet db k with
  | none => exact hdb
  | some mv =>
    obtain ⟨he, hb⟩ := dbMetaOK_get db k mv hdb hm
    simp only
    split
    · exact hdb
    · split
      · exact hdb
      · split
        · exact hdb
        · apply dbMetaOK_applyBatch db _ hdb
          intro k2 m2 hmem
          simp only [List.mem_cons, List.not_mem_nil, or_false] at hmem
          rcases hmem with hmem | hmem
          · injection hmem with hk2 hm2
            subst hm2
            rw [modifyLC]
            exact metaEqB_left_count mv 1 he hb
          · simp at hmem

theorem rpushx_metaOK (db : DB) (now : Nat) (fs : List Bool) (k : Bytes) (v : Bytes)
    (hdb : dbMetaOK db = true) : dbMetaOK (rpushx db now fs k v).2.1 = true := by
  unfold rpushx
  cases hm : metaGet db k with
  | none => exact hdb
  | some mv =>
    obtain ⟨he, hb⟩ := dbMetaOK_get db k mv hdb hm
    simp only
    split
    · exact hdb
    · split
      · exact hdb
      · split
        · exact hdb
        · apply dbMetaOK_applyBatch db _ hdb
          intro k2 m2 hmem
          simp only [List.mem_cons, List.not_mem_nil, or_false] at hmem
          rcases hmem with hmem | hmem
          · injection hmem with hk2 hm2
            subst hm2
            rw [modifyRC]
            exact metaEqB_right_count mv 1 he hb
          · simp at hmem

theorem lpop_metaOK (db : DB) (now : Nat) (fs : List Bool) (k : Bytes)
    (hdb : dbMetaOK db = true) : dbMetaOK (lpop db now fs k).2.1 = true := by
  unfold lpop
  cases hm : metaGet db k with
  | none => exact hdb
  | some mv =>
    obtain ⟨he, hb⟩ := dbMetaOK_get db k mv hdb hm
    simp only
    split
    · exact hdb
    · split
      · exact hdb
      · cases hd : dataGet db ⟨k, mv.version, u64I ((mv.left_index : Int) + 1)⟩ with
        | none => exact hdb
        | some p =>
          simp only
          split
          · exact hdb
          · apply dbMetaOK_applyBatch db _ hdb
            intro k2 m2 hmem
            simp only [List.mem_cons, List.not_mem_nil, or_false] at hmem
            rcases hmem with hmem | hmem
            · simp at hmem
            · injection hmem with hk2 hm2
              subst hm2
              rw [modifyLC]
              exact metaEqB_left_count mv (-1) he hb

theorem rpop_metaOK (db : DB) (now : Nat) (fs : List Bool) (k : Bytes)
    (hdb : dbMetaOK db = true) : dbMetaOK (rpop db now fs k).2.1 = true := by
  unfold rpop
  cases hm : metaGet db k with
  | none => exact hdb
  | some mv =>
    obtain ⟨he, hb⟩ := dbMetaOK_get db k mv hdb hm
    simp only
    split
    · exact hdb
    · split
      · exact hdb
      · cases hd : dataGet db ⟨k, mv.version, u64I ((mv.right_index : Int) - 1)⟩ with
        | none => exact hdb
        | some p =>
          simp only
          split
          · exact hdb
          · apply dbMetaOK_applyBatch db _ hdb
            intro k2 m2 hmem
            simp only [List.mem_cons, List.not_mem_nil, or_false] at hmem
            rcases hmem with hmem | hmem
            · simp at hmem
            · injection hmem with hk2 hm2
              subst hm2
              rw [modifyRC]
              exact metaEqB_right_count mv (-1) he hb

theorem lset_metaOK (db : DB) (now : Nat) (fs : List Bool) (k : Bytes) (i : Int) (v : Bytes)
    (hdb : dbMetaOK db = true) : dbMetaOK (lset db now fs k i v).2 = true := by
  unfold lset
  cases hm : metaGet db k with
  | none => exact hdb
  | some mv =>
    simp only
    split
    · exact hdb
    · split
      · exact hdb
      · split
        · exact hdb
        · split
          · exact hdb
          · apply dbMetaOK_applyBatch db _ hdb
            intro k2 m2 hmem
            simp only [List.mem_cons, List.not_mem_nil, or_false] at hmem
            simp at hmem

theorem expire_metaOK (db : DB) (now : Nat) (fs : List Bool) (k : Bytes) (ttl : Int)
    (hdb : dbMetaOK db = true) : dbMetaOK (expire db now fs k ttl).2 = true := by
  unfold expire
  cases hm : metaGet db k with
  | none => exact hdb
  | some mv =>
    obtain ⟨he, hb⟩ := dbMetaOK_get db k mv hdb hm
    simp only
    split
    · exact hdb
    · split
      · split
        · exact hdb
        · apply dbMetaOK_applyBatch db _ hdb
          intro k2 m2 hmem
          simp only [List.mem_cons, List.not_mem_nil, or_false] at hmem
          injection hmem with hk2 hm2
          subst hm2
          rw [metaEqB_setTs, metaBoundB_setTs]
          exact ⟨he, hb⟩
      · split
        · exact hdb
        · apply dbMetaOK_applyBatch db _ hdb
          intro k2 m2 hmem
          simp only [List.mem_cons, List.not_mem_nil, or_false] at hmem
          injection hmem with hk2 hm2
          subst hm2
          exact ⟨metaEqB_initial mv, metaBoundB_initial mv⟩

theorem del_metaOK (db : DB) (now : Nat) (fs : List Bool) (k : Bytes)
    (hdb : dbMetaOK db = true) : dbMetaOK (del db now fs k).2 = true := by
  unfold del
  cases hm : metaGet db k with
  | none => exact hdb
  | some mv =>
    simp only
    split
    · exact hdb
    · split
      · exact hdb
      · apply dbMetaOK_applyBatch db _ hdb
        intro k2 m2 hmem
        simp only [List.mem_cons, List.not_mem_nil, or_false] at hmem
        injection hmem with hk2 hm2
        subst hm2
        exact ⟨metaEqB_initial mv, metaBoundB_initial mv⟩

theorem linsert_metaOK (db : DB) (now : Nat) (fs : List Bool) (k : Bytes) (bf : Bool)
    (pivot v : Bytes) (hdb : dbMetaOK db = true) :
    dbMetaOK (linsert db now fs k bf pivot v).2.1 = true := by
  unfold linsert
  cases hm : metaGet db k with
  | none => exact hdb
  | some mv =>
    obtain ⟨he, hb⟩ := dbMetaOK_get db k mv hdb hm
    simp only
    split
    · exact hdb
    · split
      · exact hdb
      · cases hscan : pivotScan (mv.right_index - u64I ((mv.left_index : Int) + 1))
          ((newIter db).seek ⟨k, mv.version, u64I ((mv.left_index : Int) + 1)⟩)
          (u64I ((mv.left_index : Int) + 1)) mv.right_index pivot with
        | none => exact hdb
        | some pivotIdx =>
          simp only
          split
          · split
            · exact hdb
            · apply dbMetaOK_applyBatch db _ hdb
              intro k2 m2 hmem
              rw [List.mem_append] at hmem
              rcases hmem with hmem | hmem
              · have hdata := writeAsc_dataOps k mv.version mv.left_index _ _ hmem
                simp [BOp.isDataOp] at hdata
              · simp only [List.mem_cons, List.not_mem_nil, or_false] at hmem
                rcases hmem with hmem | hmem
                · injection hmem with hk2 hm2
                  subst hm2
                  rw [modifyCL]
                  exact metaEqB_left_count mv 1 he hb
                · simp at hmem
          · split
            · exact hdb
            · apply dbMetaOK_applyBatch db _ hdb
              intro k2 m2 hmem
              rw [List.mem_append] at hmem
              rcases hmem with hmem | hmem
              · have hdata := writeAsc_dataOps k mv.version _ _ _ hmem
                simp [BOp.isDataOp] at hdata
              · simp only [List.mem_cons, List.not_mem_nil, or_false] at hmem
                rcases hmem with hmem | hmem
                · injection hmem with hk2 hm2
                  subst hm2
                  rw [modifyCR]
                  exact metaEqB_right_count mv 1 he hb
                · simp at hmem

theorem lrem_metaOK (db : DB) (now : Nat) (fs : List Bool) (k : Bytes) (cnt : Int)
    (target : Bytes) (hdb : dbMetaOK db = true) :
    dbMetaOK (lrem db now fs k cnt target).2.1 = true := by
  unfold lrem
  cases hm : metaGet db k with
  | none => exact hdb
  | some mv =>
    obtain ⟨he, hb⟩ := dbMetaOK_get db k mv hdb hm
    simp only
    split
    · exact hdb
    · split
      · exact hdb
      · split <;>
        · split
          · exact hdb
          · split
            · split
              · exact hdb
              · apply dbMetaOK_applyBatch db _ hdb
                intro k2 m2 hmem
                rw [List.mem_append] at hmem
                rcases hmem with hmem | hmem
                · have hdata := lremRewriteL_dataOps _ _ _ _ _ _ k mv.version target _ hmem
                  simp [BOp.isDataOp] at hdata
                · simp only [List.mem_cons, List.not_mem_nil, or_false] at hmem
                  injection hmem with hk2 hm2
                  subst hm2
                  rw [modifyCL]
                  exact metaEqB_left_count mv _ he hb
            · split
              · exact hdb
              · apply dbMetaOK_applyBatch db _ hdb
                intro k2 m2 hmem
                rw [List.mem_append] at hmem
                rcases hmem with hmem | hmem
                · have hdata := lremRewriteR_dataOps _ _ _ _ _ _ k mv.version target _ hmem
                  simp [BOp.isDataOp] at hdata
                · simp only [List.mem_cons, List.not_mem_nil, or_false] at hmem
                  injection hmem with hk2 hm2
                  subst hm2
                  rw [modifyCR]
                  exact metaEqB_right_count mv _ he hb

theorem rpoplpush_metaOK (db : DB) (now : Nat) (fs : List Bool) (s d : Bytes)
    (hdb : dbMetaOK db = true) : dbMetaOK (rpoplpush db now fs s d).2.1 = true := by
  unfold rpoplpush
  split
  · cases hm : metaGet db s with
    | none => exact hdb
    | some mv =>
      obtain ⟨he, hb⟩ := dbMetaOK_get db s mv hdb hm
      simp only
      split
      · exact hdb
      · split
        · exact hdb
        · cases hd : dataGet db ⟨s, mv.version, u64I ((mv.right_index : Int) - 1)⟩ with
          | none => exact hdb
          | some target =>
            simp only
            split
            · exact hdb
            · split
              · exact hdb
              · apply dbMetaOK_applyBatch db _ hdb
                intro k2 m2 hmem
                simp only [List.mem_cons, List.not_mem_nil, or_false] at hmem
                rcases hmem with hmem | hmem | hmem
                · simp at hmem
                · simp at hmem
                · injection hmem with hk2 hm2
                  subst hm2
                  exact metaEqB_rot mv he hb
  · cases hms : metaGet db s with
    | none => exact hdb
    | some mvs =>
      obtain ⟨hes, hbs⟩ := dbMetaOK_get db s mvs hdb hms
      simp only
      split
      · exact hdb
      · split
        · exact hdb
        · cases hdt : dataGet db ⟨s, mvs.version, u64I ((mvs.right_index : Int) - 1)⟩ with
          | none => exact hdb
          | some target =>
            simp only
            split
            · exact hdb
            · apply dbMetaOK_applyBatch db _ hdb
              intro k2 m2 hmem
              rw [List.mem_append] at hmem
              rcases hmem with hmem | hmem
              · simp only [List.mem_cons, List.not_mem_nil, or_false] at hmem
                rcases hmem with hmem | hmem
                · simp at hmem
                · injection hmem with hk2 hm2
                  subst hm2
                  rw [modifyRC]
                  exact metaEqB_right_count mvs (-1) hes hbs
              · cases hmd : metaGet db d with
                | some mvd0 =>
                  rw [hmd] at hmem
                  obtain ⟨hed, hbd⟩ := dbMetaOK_get db d mvd0 hdb hmd
                  have hmvd1 : metaEqB (if isStale mvd0 now = true then initialMetaValue mvd0
                      else mvd0) = true ∧
                      metaBoundB (if isStale mvd0 now = true then initialMetaValue mvd0
                      else mvd0) = true := by
                    split
                    · exact ⟨metaEqB_initial mvd0, metaBoundB_initial mvd0⟩
                    · exact ⟨hed, hbd⟩
                  simp only [List.mem_cons, List.not_mem_nil, or_false] at hmem
                  rcases hmem with hmem | hmem
                  · simp at hmem
                  · injection hmem with hk2 hm2
                    subst hm2
                    rw [modifyLC]
                    exact metaEqB_left_count _ 1 hmvd1.1 hmvd1.2
                | none =>
                  rw [hmd] at hmem
                  simp only [List.mem_cons, List.not_mem_nil, or_false] at hmem
                  rcases hmem with hmem | hmem
                  · simp at hmem
                  · injection hmem with hk2 hm2
                    subst hm2
                    exact metaEqB_freshDst

theorem ltrim_metaOK (db : DB) (now : Nat) (fs : List Bool) (k : Bytes) (a b : Int)
    (hdb : dbMetaOK db = true) : dbMetaOK (ltrim db now fs k a b).2 = true := by
  unfold ltrim
  cases hm : metaGet db k with
  | none =>
    simp only
    exact rpush_metaOK db now fs k [] hdb
  | some mv =>
    obtain ⟨he, hb⟩ := dbMetaOK_get db k mv hdb hm
    simp only
    split
    · exact hdb
    · split
      · exact hdb
      · split
        · exact hdb
        · apply rpush_metaOK
          apply dbMetaOK_applyBatch db _ hdb
          intro k2 m2 hmem
          simp only [List.mem_cons, List.not_mem_nil, or_false] at hmem
          injection hmem with hk2 hm2
          subst hm2
          exact ⟨metaEqB_initial mv, metaBoundB_initial mv⟩

theorem applyBatch_commits (db : DB) (l : List BOp) :
    (applyBatch db l).commits = db.commits + 1 := rfl

theorem lpush_commitD (db : DB) (now : Nat) (fs : List Bool) (k : Bytes) (vs : List Bytes) :
    ((lpush db now fs k vs).1 = Status.ok ∧
      (lpush db now fs k vs).2.1.commits = db.commits + 1) ∨
    ((lpush db now fs k vs).1 = Status.berr ∧ (lpush db now fs k vs).2.1 = db) := by
  unfold lpush
  cases metaGet db k with
  | some mv =>
    simp only
    split
    · exact Or.inr ⟨rfl, rfl⟩
    · exact Or.inl ⟨rfl, rfl⟩
  | none =>
    simp only
    split
    · exact Or.inr ⟨rfl, rfl⟩
    · exact Or.inl ⟨rfl, rfl⟩

theorem rpush_commitD (db : DB) (now : Nat) (fs : List Bool) (k : Bytes) (vs : List Bytes) :
    ((rpush db now fs k vs).1 = Status.ok ∧
      (rpush db now fs k vs).2.1.commits = db.commits + 1) ∨
    ((rpush db now fs k vs).1 = Status.berr ∧ (rpush db now fs k vs).2.1 = db) := by
  unfold rpush
  cases metaGet db k with
  | some mv =>
    simp only
    split
    · exact Or.inr ⟨rfl, rfl⟩
    · exact Or.inl ⟨rfl, rfl⟩
  | none =>
    simp only
    split
    · exact Or.inr ⟨rfl, rfl⟩
    · exact Or.inl ⟨rfl, rfl⟩

theorem lpushx_commitD (db : DB) (now : Nat) (fs : List Bool) (k : Bytes) (v : Bytes) :
    ((lpushx db now fs k v).1 = Status.notFound ∧ (lpushx db now fs k v).2.1 = db) ∨
    ((lpushx db now fs k v).1 = Status.ok ∧
      (lpushx db now fs k v).2.1.commits = db.commits + 1) ∨
    ((lpushx db now fs k v).1 = Status.berr ∧ (lpushx db now fs k v).2.1 = db) := by
  unfold lpushx
  cases metaGet db k with
  | none => exact Or.inl ⟨rfl, rfl⟩
  | some mv =>
    simp only
    split
    · exact Or.inl ⟨rfl, rfl⟩
    · split
      · exact Or.inl ⟨rfl, rfl⟩
      · split
        · exact Or.inr (Or.inr ⟨rfl, rfl⟩)
        · exact Or.inr (Or.inl ⟨rfl, rfl⟩)

theorem rpushx_commitD (db : DB) (now : Nat) (fs : List Bool) (k : Bytes) (v : Bytes) :
    ((rpushx db now fs k v).1 = Status.notFound ∧ (rpushx db now fs k v).2.1 = db) ∨
    ((rpushx db now fs k v).1 = Status.ok ∧
      (rpushx db now fs k v).2.1.commits = db.commits + 1) ∨
    ((rpushx db now fs k v).1 = Status.berr ∧ (rpushx db now fs k v).2.1 = db) := by
  unfold rpushx
  cases metaGet db k with
  | none => exact Or.inl ⟨rfl, rfl⟩
  | some mv =>
    simp only
    split
    · exact Or.inl ⟨rfl, rfl⟩
    · split
      · exact Or.inl ⟨rfl, rfl⟩
      · split
        · exact Or.inr (Or.inr ⟨rfl, rfl⟩)
        · exact Or.inr (Or.inl ⟨rfl, rfl⟩)

theorem lpop_commitD (db : DB) (now : Nat) (fs : List Bool) (k : Bytes) :
    ((lpop db now fs k).1 = Status.notFound ∧ (lpop db now fs k).2.1 = db) ∨
    ((lpop db now fs k).1 = Status.ok ∧ (lpop db now fs k).2.1.commits = db.commits + 1) ∨
    ((lpop db now fs k).1 = Status.berr ∧ (lpop db now fs k).2.1 = db) := by
  unfold lpop
  cases metaGet db k with
  | none => exact Or.inl ⟨rfl, rfl⟩
  | some mv =>
    simp only
    split
    · exact Or.inl ⟨rfl, rfl⟩
    · split
      · exact Or.inl ⟨rfl, rfl⟩
      · cases dataGet db ⟨k, mv.version, u64I ((mv.left_index : Int) + 1)⟩ with
        | none => exact Or.inl ⟨rfl, rfl⟩
        | some p =>
          simp only
          split
          · exact Or.inr (Or.inr ⟨rfl, rfl⟩)
          · exact Or.inr (Or.inl ⟨rfl, rfl⟩)

theorem rpop_commitD (db : DB) (now : Nat) (fs : List Bool) (k : Bytes) :
    ((rpop db now fs k).1 = Status.notFound ∧ (rpop db now fs k).2.1 = db) ∨
    ((rpop db now fs k).1 = Status.ok ∧ (rpop db now fs k).2.1.commits = db.commits + 1) ∨
    ((rpop db now fs k).1 = Status.berr ∧ (rpop db now fs k).2.1 = db) := by
  unfold rpop
  cases metaGet db k with
  | none => exact Or.inl ⟨rfl, rfl⟩
  | some mv =>
    simp only
    split
    · exact Or.inl ⟨rfl, rfl⟩
    · split
      · exact Or.inl ⟨rfl, rfl⟩
      · cases dataGet db ⟨k, mv.version, u64I ((mv.right_index : Int) - 1)⟩ with
        | none => exact Or.inl ⟨rfl, rfl⟩
        | some p =>
          simp only
          split
          · exact Or.inr (Or.inr ⟨rfl, rfl⟩)
          · exact Or.inr (Or.inl ⟨rfl, rfl⟩)

theorem linsert_commitD (db : DB) (now : Nat) (fs : List Bool) (k : Bytes) (bf : Bool)
    (pivot v : Bytes) :
    ((linsert db now fs k bf pivot v).1 = Status.notFound ∧
      (linsert db now fs k bf pivot v).2.1 = db) ∨
    ((linsert db now fs k bf pivot v).1 = Status.ok ∧
      (linsert db now fs k bf pivot v).2.1.commits = db.commits + 1) ∨
    ((linsert db now fs k bf pivot v).1 = Status.berr ∧
      (linsert db now fs k bf pivot v).2.1 = db) := by
  unfold linsert
  cases metaGet db k with
  | none => exact Or.inl ⟨rfl, rfl⟩
  | some mv =>
    simp only
    split
    · exact Or.inl ⟨rfl, rfl⟩
    · split
      · exact Or.inl ⟨rfl, rfl⟩
      · cases pivotScan (mv.right_index - u64I ((mv.left_index : Int) + 1))
          ((newIter db).seek ⟨k, mv.version, u64I ((mv.left_index : Int) + 1)⟩)
          (u64I ((mv.left_index : Int) + 1)) mv.right_index pivot with
        | none => exact Or.inl ⟨rfl, rfl⟩
        | some pivotIdx =>
          simp only
          split
          · split
            · exact Or.inr (Or.inr ⟨rfl, rfl⟩)
            · exact Or.inr (Or.inl ⟨rfl, rfl⟩)
          · split
            · exact Or.inr (Or.inr ⟨rfl, rfl⟩)
            · exact Or.inr (Or.inl ⟨rfl, rfl⟩)

theorem lrem_commitD (db : DB) (now : Nat) (fs : List Bool) (k : Bytes) (cnt : Int)
    (target : Bytes) :
    ((lrem db now fs k cnt target).1 = Status.notFound ∧
      (lrem db now fs k cnt target).2.1 = db) ∨
    ((lrem db now fs k cnt target).1 = Status.ok ∧
      (lrem db now fs k cnt target).2.1.commits = db.commits + 1) ∨
    ((lrem db now fs k cnt target).1 = Status.berr ∧
      (lrem db now fs k cnt target).2.1 = db) := by
  unfold lrem
  cases metaGet db k with
  | none => exact Or.inl ⟨rfl, rfl⟩
  | some mv =>
    simp only
    split
    · exact Or.inl ⟨rfl, rfl⟩
    · split
      · exact Or.inl ⟨rfl, rfl⟩
      · split <;>
        · split
          · exact Or.inl ⟨rfl, rfl⟩
          · split
            · split
              · exact Or.inr (Or.inr ⟨rfl, rfl⟩)
              · exact Or.inr (Or.inl ⟨rfl, rfl⟩)
            · split
              · exact Or.inr (Or.inr ⟨rfl, rfl⟩)
              · exact Or.inr (Or.inl ⟨rfl, rfl⟩)

theorem lset_commitD (db : DB) (now : Nat) (fs : List Bool) (k : Bytes) (i : Int)
    (v : Bytes) :
    ((lset db now fs k i v).1 = Status.notFound ∧ (lset db now fs k i v).2 = db) ∨
    ((lset db now fs k i v).1 = Status.ok ∧
      (lset db now fs k i v).2.commits = db.commits + 1) ∨
    ((lset db now fs k i v).1 = Status.berr ∧ (lset db now fs k i v).2 = db) := by
  unfold lset
  cases metaGet db k with
  | none => exact Or.inl ⟨rfl, rfl⟩
  | some mv =>
    simp only
    split
    · exact Or.inl ⟨rfl, rfl⟩
    · split
      · exact Or.inl ⟨rfl, rfl⟩
      · split
        · exact Or.inl ⟨rfl, rfl⟩
        · split
          · exact Or.inr (Or.inr ⟨rfl, rfl⟩)
          · exact Or.inr (Or.inl ⟨rfl, rfl⟩)

theorem expire_commitD (db : DB) (now : Nat) (fs : List Bool) (k : Bytes) (ttl : Int) :
    ((expire db now fs k ttl).1 = Status.notFound ∧ (expire db now fs k ttl).2 = db) ∨
    ((expire db now fs k ttl).1 = Status.ok ∧
      (expire db now fs k ttl).2.commits = db.commits + 1) ∨
    ((expire db now fs k ttl).1 = Status.berr ∧ (expire db now fs k ttl).2 = db) := by
  unfold expire
  cases metaGet db k with
  | none => exact Or.inl ⟨rfl, rfl⟩
  | some mv =>
    simp only
    split
    · exact Or.inl ⟨rfl, rfl⟩
    · split
      · split
        · exact Or.inr (Or.inr ⟨rfl, rfl⟩)
        · exact Or.inr (Or.inl ⟨rfl, rfl⟩)
      · split
        · exact Or.inr (Or.inr ⟨rfl, rfl⟩)
        · exact Or.inr (Or.inl ⟨rfl, rfl⟩)

theorem del_commitD (db : DB) (now : Nat) (fs : List Bool) (k : Bytes) :
    ((del db now fs k).1 = Status.notFound ∧ (del db now fs k).2 = db) ∨
    ((del db now fs k).1 = Status.ok ∧ (del db now fs k).2.commits = db.commits + 1) ∨
    ((del db now fs k).1 = Status.berr ∧ (del db now fs k).2 = db) := by
  unfold del
  cases metaGet db k with
  | none => exact Or.inl ⟨rfl, rfl⟩
  | some mv =>
    simp only
    split
    · exact Or.inl ⟨rfl, rfl⟩
    · split
      · exact Or.inr (Or.inr ⟨rfl, rfl⟩)
      · exact Or.inr (Or.inl ⟨rfl, rfl⟩)

theorem rpoplpush_commitD (db : DB) (now : Nat) (fs : List Bool) (s d : Bytes) :
    ((rpoplpush db now fs s d).1 = Status.notFound ∧ (rpoplpush db now fs s d).2.1 = db) ∨
    ((rpoplpush db now fs s d).1 = Status.ok ∧ (rpoplpush db now fs s d).2.1 = db) ∨
    ((rpoplpush db now fs s d).1 = Status.ok ∧
      (rpoplpush db now fs s d).2.1.commits = db.commits + 1) ∨
    ((rpoplpush db now fs s d).1 = Status.berr ∧ (rpoplpush db now fs s d).2.1 = db) := by
  unfold rpoplpush
  split
  · cases metaGet db s with
    | none => exact Or.inl ⟨rfl, rfl⟩
    | some mv =>
      simp only
      split
      · exact Or.inl ⟨rfl, rfl⟩
      · split
        · exact Or.inl ⟨rfl, rfl⟩
        · cases dataGet db ⟨s, mv.version, u64I ((mv.right_index : Int) - 1)⟩ with
          | none => exact Or.inl ⟨rfl, rfl⟩
          | some target =>
            simp only
            split
            · exact Or.inr (Or.inl ⟨rfl, rfl⟩)
            · split
              · exact Or.inr (Or.inr (Or.inr ⟨rfl, rfl⟩))
              · exact Or.inr (Or.inr (Or.inl ⟨rfl, rfl⟩))
  · cases metaGet db s with
    | none => exact Or.inl ⟨rfl, rfl⟩
    | some mvs =>
      simp only
      split
      · exact Or.inl ⟨rfl, rfl⟩
      · split
        · exact Or.inl ⟨rfl, rfl⟩
        · cases dataGet db ⟨s, mvs.version, u64I ((mvs.right_index : Int) - 1)⟩ with
          | none => exact Or.inl ⟨rfl, rfl⟩
          | some target =>
            simp only
            split
            · exact Or.inr (Or.inr (Or.inr ⟨rfl, rfl⟩))
            · exact Or.inr (Or.inr (Or.inl ⟨rfl, rfl⟩))

theorem ltrim_commitD (db : DB) (now : Nat) (fs : List Bool) (k : Bytes) (a b : Int) :
    ((ltrim db now fs k a b).1 = Status.ok ∧ (ltrim db now fs k a b).2 = db) ∨
    ((ltrim db now fs k a b).1 = Status.ok ∧
      (ltrim db now fs k a b).2.commits = db.commits + 1) ∨
    ((ltrim db now fs k a b).1 = Status.ok ∧
      (ltrim db now fs k a b).2.commits = db.commits + 2) ∨
    ((ltrim db now fs k a b).1 = Status.berr ∧ (ltrim db now fs k a b).2 = db) ∨
    ((ltrim db now fs k a b).1 = Status.berr ∧
      (ltrim db now fs k a b).2.commits = db.commits + 1) := by
  unfold ltrim
  cases metaGet db k with
  | none =>
    simp only
    rcases rpush_commitD db now fs k [] with ⟨h1, h2⟩ | ⟨h1, h2⟩
    · exact Or.inr (Or.inl ⟨h1, h2⟩)
    · refine Or.inr (Or.inr (Or.inr (Or.inl ⟨h1, ?_⟩)))
      rw [h2]
  | some mv =>
    simp only
    split
    · exact Or.inl ⟨rfl, rfl⟩
    · split
      · exact Or.inl ⟨rfl, rfl⟩
      · split
        · exact Or.inr (Or.inr (Or.inr (Or.inl ⟨rfl, rfl⟩)))
        · rcases rpush_commitD (applyBatch db [BOp.putMeta k (initialMetaValue mv)]) now
            fs.tail k (rangeLoop ((if translate mv b ≥ mv.right_index then
              u64I ((mv.right_index : Int) - 1) else translate mv b) + 1 - translate mv a)
              ((newIter db).seek ⟨k, mv.version, translate mv a⟩) (translate mv a)
              (if translate mv b ≥ mv.right_index then u64I ((mv.right_index : Int) - 1)
                else translate mv b)) with ⟨h1, h2⟩ | ⟨h1, h2⟩
          · refine Or.inr (Or.inr (Or.inl ⟨h1, ?_⟩))
            rw [h2]
            rfl
          · refine Or.inr (Or.inr (Or.inr (Or.inr ⟨h1, ?_⟩)))
            rw [h2]
            rfl

/-- Claim C1: every committed operation of the list engine preserves the
meta invariant - for each affected key the stored meta record satisfies
`right_index - left_index - 1 == count` in `u64` arithmetic (together with
the field ranges), over every starting state, clock and backend failure
script. -/
theorem C1_meta_invariant (db : DB) (now : Nat) (fs : List Bool) (call : OpCall)
    (hdb : dbMetaOK db = true) : dbMetaOK (runOpS db now fs call).2 = true := by
  cases call with
  | lpush k vs => exact lpush_metaOK db now fs k vs hdb
  | rpush k vs => exact rpush_metaOK db now fs k vs hdb
  | lpushx k v => exact lpushx_metaOK db now fs k v hdb
  | rpushx k v => exact rpushx_metaOK db now fs k v hdb
  | lpop k => exact lpop_metaOK db now fs k hdb
  | rpop k => exact rpop_metaOK db now fs k hdb
  | linsert k bf p v => exact linsert_metaOK db now fs k bf p v hdb
  | lrem k c t => exact lrem_metaOK db now fs k c t hdb
  | lset k i v => exact lset_metaOK db now fs k i v hdb
  | ltrim k a b => exact ltrim_metaOK db now fs k a b hdb
  | rpoplpush s d => exact rpoplpush_metaOK db now fs s d hdb
  | expire k t => exact expire_metaOK db now fs k t hdb
  | del k => exact del_metaOK db now fs k hdb

theorem C1_meta_invariant_witness :
    dbMetaOK exDB3 = true ∧
    dbMetaOK (runOpS exDB3 0 [] (OpCall.lpush exKey [[100]])).2 = true :=
  ⟨by decide, C1_meta_invariant exDB3 0 [] (OpCall.lpush exKey [[100]]) (by decide)⟩

/-- Claim C3 amended: every operation obeys the per-operation commit
discipline that actually holds - single-batch operations return NotFound
with no change, OK after exactly one commit, or a backend error with no
change; RPoplpush may also return OK with no commit (one-element rotation);
LTrim may return OK with zero, one or two commits and may leave its first
commit in place when its second phase fails with a backend error. -/
theorem C3_commit_discipline_amended (db : DB) (now : Nat) (fs : List Bool)
    (call : OpCall) : commitDiscipline db call (runOpS db now fs call) := by
  cases call with
  | lpush k vs => exact lpush_commitD db now fs k vs
  | rpush k vs => exact rpush_commitD db now fs k vs
  | lpushx k v => exact lpushx_commitD db now fs k v
  | rpushx k v => exact rpushx_commitD db now fs k v
  | lpop k => exact lpop_commitD db now fs k
  | rpop k => exact rpop_commitD db now fs k
  | linsert k bf p v => exact linsert_commitD db now fs k bf p v
  | lrem k c t => exact lrem_commitD db now fs k c t
  | lset k i v => exact lset_commitD db now fs k i v
  | ltrim k a b => exact ltrim_commitD db now fs k a b
  | rpoplpush s d => exact rpoplpush_commitD db now fs s d
  | expire k t => exact expire_commitD db now fs k t
  | del k => exact del_commitD db now fs k

end BlackWidow
